import Mathlib

/-!
Shallow embedding of `car_damage_classification/restructure_data.py`.

The script converts a COCO-style annotation dataset into a
directory-per-class layout.  We model the parsed JSON content of one
`instances_*2017.json` file as a `CocoData` record, the filesystem as a pair
of functions (directories that exist, file contents by path), and the copy
loop of `process_split` as a recursive function over the insertion-ordered
image→categories association list.  Python's nondeterministic set iteration
order (`list(categories)[0]`) is modelled by an explicit `setOrder`
parameter; theorems that depend on it assume only that `setOrder l` is a
permutation of `l`.  Paths are lists of components; `os.path.join` appends a
component.  File contents (data plus the metadata that `shutil.copy2`
preserves) are abstracted as natural numbers.
-/

/-- A COCO category entry: a damage-type id and its name. -/
structure Category where
  id : Int
  name : String

/-- A COCO image entry: an image id and its file name. -/
structure CocoImage where
  id : Int
  file_name : String

/-- A COCO annotation entry: the image it belongs to and the category it
references (all other COCO fields are ignored by the script). -/
structure Annotation where
  image_id : Int
  category_id : Int

/-- The parsed content of one annotation file: the three top-level lists the
script reads. -/
structure CocoData where
  categories : List Category
  images : List CocoImage
  annotations : List Annotation

deriving instance DecidableEq for Category
deriving instance DecidableEq for CocoImage
deriving instance DecidableEq for Annotation
deriving instance DecidableEq for CocoData

/-- The filesystem state: which paths are directories, and the content found
at each file path (`none` means no file there). -/
structure FS where
  isDir : List String → Bool
  files : List String → Option Nat

/-- Model of `os.makedirs(p, exist_ok=True)`: the path and all its prefixes
become directories; files are untouched. -/
def FS.mkdirs (fs : FS) (p : List String) : FS :=
  { fs with isDir := fun q => fs.isDir q || q.isPrefixOf p }

/-- Model of `shutil.copy2(src, dst)` under the guard that `src` exists: the
content at `src` is written to `dst`, overwriting anything there. -/
def FS.copy2 (fs : FS) (src dst : List String) : FS :=
  { fs with files := fun q => if q = dst then fs.files src else fs.files q }

/-- One `print` line emitted by the copy loop
(`Copied {filename} to {split_name}/{category}/`), kept structurally. -/
structure CopyMsg where
  filename : String
  split : String
  category : String

deriving instance DecidableEq for CopyMsg

/-- The outcome of a run: normal completion or an unhandled exception, each
carrying the filesystem state and the log lines printed up to that point. -/
inductive RunResult where
  | ok (fs : FS) (log : List CopyMsg)
  | err (fs : FS) (log : List CopyMsg)

/-- The filesystem state carried by a `RunResult`. -/
def RunResult.fsOf : RunResult → FS
  | .ok f _ => f
  | .err f _ => f

/-- The log carried by a `RunResult`. -/
def RunResult.logOf : RunResult → List CopyMsg
  | .ok _ l => l
  | .err _ l => l

/-- Whether a `RunResult` is a normal completion. -/
def RunResult.isOk : RunResult → Bool
  | .ok _ _ => true
  | .err _ _ => false

/-- Lookup in an association list keyed by `Int`, first match wins. -/
def lookupId {β : Type} : List (Int × β) → Int → Option β
  | [], _ => none
  | (k, v) :: rest, i => if k = i then some v else lookupId rest i

/-- Model of `category_map = {cat['id']: cat['name'] for cat in data['categories']}`:
a Python dict comprehension, where a later entry overwrites an earlier one
with the same id (hence the lookup over the reversed list). -/
def category_map (data : CocoData) : Int → Option String :=
  fun i => lookupId ((data.categories.map fun c => (c.id, c.name)).reverse) i

/-- Model of `image_map = {img['id']: img['file_name'] for img in data['images']}`. -/
def image_map (data : CocoData) : Int → Option String :=
  fun i => lookupId ((data.images.map fun im => (im.id, im.file_name)).reverse) i

/-- Model of `image_categories[image_id].add(category_name)` on a
`defaultdict(set)`: keys keep dict insertion order (appended at the end when
new), and each key's value is its set of names, kept as the
insertion-ordered duplicate-free list. -/
def insertName : List (Int × List String) → Int → String → List (Int × List String)
  | [], i, n => [(i, [n])]
  | (j, ns) :: rest, i, n =>
    if j = i then (j, if n ∈ ns then ns else ns ++ [n]) :: rest
    else (j, ns) :: insertName rest i n

/-- The annotation loop of `process_split`: resolve each annotation's
`category_id` through `cmap` (a failed lookup raises `KeyError`, modelled as
`Except.error`) and add the name to the image's set. -/
def buildImageCategories (cmap : Int → Option String)
    (acc : List (Int × List String)) :
    List Annotation → Except Unit (List (Int × List String))
  | [] => .ok acc
  | a :: rest =>
    match cmap a.category_id with
    | none => .error ()
    | some n => buildImageCategories cmap (insertName acc a.image_id n) rest

/-- The copy loop of `process_split`: for each image id with annotations (in
dict insertion order), resolve the file name through `imap` (`KeyError`
aborts, carrying the state reached so far), pick `list(categories)[0]`
via `setOrder`, create the category directory, and copy the image if its
source file exists, logging one line per copy. -/
def copyLoop (setOrder : List String → List String) (imap : Int → Option String)
    (img_dir output_dir : List String) (split_name : String) :
    List (Int × List String) → FS → List CopyMsg → RunResult
  | [], fs, log => .ok fs log
  | (image_id, categories) :: rest, fs, log =>
    match imap image_id with
    | none => .err fs log
    | some filename =>
      match (setOrder categories).head? with
      | none => .err fs log
      | some category =>
        let category_dir := output_dir ++ [split_name, category]
        let fs1 := fs.mkdirs category_dir
        let src := img_dir ++ [filename]
        let dst := category_dir ++ [filename]
        if (fs1.files src).isSome then
          copyLoop setOrder imap img_dir output_dir split_name rest
            (fs1.copy2 src dst) (log ++ [⟨filename, split_name, category⟩])
        else
          copyLoop setOrder imap img_dir output_dir split_name rest fs1 log

/-- Model of `process_split(json_path, img_dir, split_name)`: the annotation
file is already parsed into `data`; a `KeyError` in the annotation loop
aborts before any image is copied (state unchanged, empty log), otherwise
the copy loop runs over the insertion-ordered image→categories list. -/
def process_split (setOrder : List String → List String) (data : CocoData)
    (img_dir output_dir : List String) (split_name : String) (fs : FS) :
    RunResult :=
  match buildImageCategories (category_map data) [] data.annotations with
  | .error _ => .err fs []
  | .ok image_categories =>
      copyLoop setOrder (image_map data) img_dir output_dir split_name
        image_categories fs []

/-- Model of `convert_cardd_to_directory(coco_dir, output_dir)`: create the
three split directories, then process each split in order; an unhandled
exception in one split aborts the whole run. -/
def convert_cardd_to_directory (setOrder : List String → List String)
    (trainData valData testData : CocoData)
    (coco_dir output_dir : List String) (fs : FS) : RunResult :=
  let fs0 := ((fs.mkdirs (output_dir ++ ["train"])).mkdirs
      (output_dir ++ ["val"])).mkdirs (output_dir ++ ["test"])
  match process_split setOrder trainData (coco_dir ++ ["train2017"])
      output_dir "train" fs0 with
  | .err f l => .err f l
  | .ok f1 l1 =>
    match process_split setOrder valData (coco_dir ++ ["val2017"])
        output_dir "val" f1 with
    | .err f l => .err f (l1 ++ l)
    | .ok f2 l2 =>
      match process_split setOrder testData (coco_dir ++ ["test2017"])
          output_dir "test" f2 with
      | .err f l => .err f (l1 ++ l2 ++ l)
      | .ok f3 l3 => .ok f3 (l1 ++ l2 ++ l3)

/-! ### Planned effects of the copy loop

To reason about `copyLoop` we compute, as pure data, the directory
creations, file writes, and log lines it performs when it completes
normally.  `plannedWrites` reads source contents through a `read` function;
the loop itself reads them from the evolving state, and the agreement of the
two is part of the main specification lemma. -/

/-- The category directories that a normally completing copy loop creates,
one per image entry, in order (independent of source-file existence). -/
def plannedDirs (setOrder : List String → List String)
    (imap : Int → Option String) (output_dir : List String)
    (split_name : String) : List (Int × List String) → List (List String)
  | [] => []
  | (i, cats) :: rest =>
    match imap i with
    | none => []
    | some _ =>
      match (setOrder cats).head? with
      | none => []
      | some c =>
        (output_dir ++ [split_name, c]) ::
          plannedDirs setOrder imap output_dir split_name rest

/-- The file writes (destination path, content) that a normally completing
copy loop performs, in order, when source contents are given by `read`. -/
def plannedWrites (setOrder : List String → List String)
    (imap : Int → Option String) (img_dir output_dir : List String)
    (split_name : String) (read : List String → Option Nat) :
    List (Int × List String) → List (List String × Nat)
  | [] => []
  | (i, cats) :: rest =>
    match imap i with
    | none => []
    | some fn =>
      match (setOrder cats).head? with
      | none => []
      | some c =>
        match read (img_dir ++ [fn]) with
        | some b =>
          (output_dir ++ [split_name, c, fn], b) ::
            plannedWrites setOrder imap img_dir output_dir split_name read rest
        | none =>
          plannedWrites setOrder imap img_dir output_dir split_name read rest

/-- The log lines that a normally completing copy loop prints, in order. -/
def plannedLog (setOrder : List String → List String)
    (imap : Int → Option String) (img_dir : List String)
    (split_name : String) (read : List String → Option Nat) :
    List (Int × List String) → List CopyMsg
  | [] => []
  | (i, cats) :: rest =>
    match imap i with
    | none => []
    | some fn =>
      match (setOrder cats).head? with
      | none => []
      | some c =>
        match read (img_dir ++ [fn]) with
        | some _ =>
          ⟨fn, split_name, c⟩ ::
            plannedLog setOrder imap img_dir split_name read rest
        | none => plannedLog setOrder imap img_dir split_name read rest

/-- Apply a list of (path, content) writes to a file map, in order. -/
def applyWrites : List (List String × Nat) → (List String → Option Nat) →
    List String → Option Nat
  | [], f, p => f p
  | (d, b) :: ws, f, p =>
    applyWrites ws (fun q => if q = d then some b else f q) p

/-- The value left at `p` by a write list (the last write to `p` wins). -/
def lastWrite : List (List String × Nat) → List String → Option Nat
  | [], _ => none
  | (d, b) :: ws, p =>
    match lastWrite ws p with
    | some b' => some b'
    | none => if p = d then some b else none

theorem applyWrites_eq_lastWrite (ws : List (List String × Nat))
    (f : List String → Option Nat) (p : List String) :
    applyWrites ws f p =
      match lastWrite ws p with
      | some b => some b
      | none => f p := by
  induction ws generalizing f with
  | nil => simp [applyWrites, lastWrite]
  | cons w ws ih =>
    obtain ⟨d, b⟩ := w
    simp only [applyWrites, lastWrite]
    rw [ih]
    cases h : lastWrite ws p with
    | some b' => simp
    | none => by_cases hp : p = d <;> simp [hp]

theorem lastWrite_eq_none (ws : List (List String × Nat)) (p : List String)
    (h : ∀ d b, (d, b) ∈ ws → d ≠ p) : lastWrite ws p = none := by
  induction ws with
  | nil => rfl
  | cons w ws ih =>
    obtain ⟨d, b⟩ := w
    simp only [lastWrite]
    rw [ih fun d' b' hm => h d' b' (List.mem_cons_of_mem _ hm)]
    have hd : p ≠ d := Ne.symm (h d b (List.mem_cons_self _ _))
    simp [hd]

theorem lastWrite_mem (ws : List (List String × Nat)) (p : List String)
    (b : Nat) (h : lastWrite ws p = some b) : (p, b) ∈ ws := by
  induction ws with
  | nil => simp [lastWrite] at h
  | cons w ws ih =>
    obtain ⟨d, c⟩ := w
    simp only [lastWrite] at h
    cases hw : lastWrite ws p with
    | some b' =>
      rw [hw] at h
      exact List.mem_cons_of_mem _ (ih (hw.trans (by injection h with h; rw [h])))
    | none =>
      rw [hw] at h
      by_cases hp : p = d
      · rw [if_pos hp] at h
        injection h with h
        subst hp h
        exact List.mem_cons_self _ _
      · rw [if_neg hp] at h
        exact absurd h (by simp)

theorem lastWrite_eq_some (ws : List (List String × Nat)) (p : List String)
    (b : Nat) (hmem : (p, b) ∈ ws) (huniq : ∀ c, (p, c) ∈ ws → c = b) :
    lastWrite ws p = some b := by
  induction ws with
  | nil => simp at hmem
  | cons w ws ih =>
    obtain ⟨d, c⟩ := w
    simp only [lastWrite]
    cases hw : lastWrite ws p with
    | some b' =>
      have : (p, b') ∈ ws := lastWrite_mem ws p b' hw
      rw [huniq b' (List.mem_cons_of_mem _ this)]
    | none =>
      rcases List.mem_cons.mp hmem with h | h
      · injection h with h1 h2
        subst h1 h2
        simp
      · exact absurd (ih h fun c hc => huniq c (List.mem_cons_of_mem _ hc))
          (by simp [hw])

theorem applyWrites_idem (ws : List (List String × Nat))
    (f : List String → Option Nat) (p : List String) :
    applyWrites ws (fun q => applyWrites ws f q) p = applyWrites ws f p := by
  rw [applyWrites_eq_lastWrite]
  cases h : lastWrite ws p with
  | some b => rw [applyWrites_eq_lastWrite, h]
  | none => rw [applyWrites_eq_lastWrite, h]

theorem applyWrites_comm (ws vs : List (List String × Nat))
    (hdisj : ∀ d b d' b', (d, b) ∈ ws → (d', b') ∈ vs → d ≠ d')
    (f : List String → Option Nat) (p : List String) :
    applyWrites ws (fun q => applyWrites vs f q) p =
      applyWrites vs (fun q => applyWrites ws f q) p := by
  rcases hw : lastWrite ws p with _ | b
  · rcases hv : lastWrite vs p with _ | b'
    · simp [applyWrites_eq_lastWrite, hw, hv]
    · simp [applyWrites_eq_lastWrite, hw, hv]
  · rcases hv : lastWrite vs p with _ | b'
    · simp [applyWrites_eq_lastWrite, hw, hv]
    · exact absurd rfl
        (hdisj p b p b' (lastWrite_mem ws p b hw) (lastWrite_mem vs p b' hv))

/-! ### Path lemmas

`List.isPrefixOf` is the executable "is under / is an ancestor of" relation
on paths.  The separation lemmas show that when `output_dir` is not an
ancestor of `img_dir`, no destination path of the copy loop can collide with
a source path. -/

theorem isPrefixOf_iff (a b : List String) :
    a.isPrefixOf b = true ↔ ∃ t, b = a ++ t := by
  induction a generalizing b with
  | nil => simp [List.isPrefixOf]
  | cons x xs ih =>
    cases b with
    | nil => simp [List.isPrefixOf]
    | cons y ys =>
      simp only [List.isPrefixOf, Bool.and_eq_true, beq_iff_eq, ih,
        List.cons_append, List.cons.injEq]
      constructor
      · rintro ⟨rfl, t, rfl⟩
        exact ⟨t, rfl, rfl⟩
      · rintro ⟨t, rfl, rfl⟩
        exact ⟨rfl, t, rfl⟩

theorem isPrefixOf_append (a t : List String) :
    a.isPrefixOf (a ++ t) = true :=
  (isPrefixOf_iff a (a ++ t)).mpr ⟨t, rfl⟩

theorem isPrefixOf_refl (a : List String) : a.isPrefixOf a = true := by
  have := isPrefixOf_append a []
  rwa [List.append_nil] at this

theorem isPrefixOf_comparable (a b l : List String)
    (ha : a.isPrefixOf l = true) (hb : b.isPrefixOf l = true) :
    a.isPrefixOf b = true ∨ b.isPrefixOf a = true := by
  induction l generalizing a b with
  | nil =>
    cases a with
    | nil => left; simp [List.isPrefixOf]
    | cons x xs => simp [List.isPrefixOf] at ha
  | cons z zs ih =>
    cases a with
    | nil => left; simp [List.isPrefixOf]
    | cons x xs =>
      cases b with
      | nil => right; simp [List.isPrefixOf]
      | cons y ys =>
        simp only [List.isPrefixOf, Bool.and_eq_true, beq_iff_eq] at ha hb ⊢
        obtain ⟨rfl, ha2⟩ := ha
        obtain ⟨rfl, hb2⟩ := hb
        rcases ih xs ys ha2 hb2 with h | h
        · left; exact ⟨rfl, h⟩
        · right; exact ⟨rfl, h⟩

theorem isPrefixOf_trans (a b c : List String) (hab : a.isPrefixOf b = true)
    (hbc : b.isPrefixOf c = true) : a.isPrefixOf c = true := by
  obtain ⟨t, rfl⟩ := (isPrefixOf_iff a b).mp hab
  obtain ⟨u, rfl⟩ := (isPrefixOf_iff (a ++ t) c).mp hbc
  rw [List.append_assoc]
  exact isPrefixOf_append a (t ++ u)

/-- If `output_dir` is not an ancestor of `img_dir`, a destination path of
the copy loop never coincides with a source path. -/
theorem dst_ne_src (output_dir img_dir : List String)
    (hsep : output_dir.isPrefixOf img_dir = false)
    (s c f g : String) : output_dir ++ [s, c, f] ≠ img_dir ++ [g] := by
  intro heq
  have h1 : output_dir.isPrefixOf (img_dir ++ [g]) = true := by
    rw [← heq]; exact isPrefixOf_append output_dir [s, c, f]
  have h2 : img_dir.isPrefixOf (img_dir ++ [g]) = true :=
    isPrefixOf_append img_dir [g]
  rcases isPrefixOf_comparable output_dir img_dir (img_dir ++ [g]) h1 h2 with
    h | h
  · rw [h] at hsep; cases hsep
  · obtain ⟨t, rfl⟩ := (isPrefixOf_iff img_dir output_dir).mp h
    rw [List.append_assoc] at heq
    have := List.append_cancel_left heq
    have hlen := congrArg List.length this
    simp at hlen

/-- If `coco_dir` and `output_dir` are prefix-incomparable, `output_dir` is
not an ancestor of any of the split image folders `coco_dir/<sfx>`. -/
theorem sep_of_incomparable (coco_dir output_dir : List String)
    (h1 : output_dir.isPrefixOf coco_dir = false)
    (h2 : coco_dir.isPrefixOf output_dir = false) (sfx : String) :
    output_dir.isPrefixOf (coco_dir ++ [sfx]) = false := by
  cases hb : output_dir.isPrefixOf (coco_dir ++ [sfx]) with
  | false => rfl
  | true =>
    rcases isPrefixOf_comparable output_dir coco_dir (coco_dir ++ [sfx]) hb
        (isPrefixOf_append coco_dir [sfx]) with h | h
    · rw [h] at h1; cases h1
    · rw [h] at h2; cases h2

theorem lookupId_mem {β : Type} (l : List (Int × β)) (i : Int) (v : β)
    (h : lookupId l i = some v) : (i, v) ∈ l := by
  induction l with
  | nil => simp [lookupId] at h
  | cons e rest ih =>
    obtain ⟨k, w⟩ := e
    simp only [lookupId] at h
    by_cases hk : k = i
    · rw [if_pos hk] at h
      injection h with h
      subst hk h
      exact List.mem_cons_self _ _
    · rw [if_neg hk] at h
      exact List.mem_cons_of_mem _ (ih h)

theorem image_map_some (data : CocoData) (i : Int) (fn : String)
    (h : image_map data i = some fn) :
    ∃ img, img ∈ data.images ∧ img.id = i ∧ img.file_name = fn := by
  have := lookupId_mem _ _ _ h
  rw [List.mem_reverse, List.mem_map] at this
  obtain ⟨img, hmem, heq⟩ := this
  injection heq with h1 h2
  exact ⟨img, hmem, h1, h2⟩

theorem category_map_some (data : CocoData) (i : Int) (n : String)
    (h : category_map data i = some n) :
    ∃ c, c ∈ data.categories ∧ c.id = i ∧ c.name = n := by
  have := lookupId_mem _ _ _ h
  rw [List.mem_reverse, List.mem_map] at this
  obtain ⟨c, hmem, heq⟩ := this
  injection heq with h1 h2
  exact ⟨c, hmem, h1, h2⟩

/-! ### Lemmas about the image→categories association list -/

theorem insertName_mem_name (acc : List (Int × List String)) (i : Int)
    (n : String) (j : Int) (ms : List String) (x : String)
    (hmem : (j, ms) ∈ insertName acc i n) (hx : x ∈ ms) :
    (j = i ∧ x = n) ∨ ∃ ms0, (j, ms0) ∈ acc ∧ x ∈ ms0 := by
  induction acc with
  | nil =>
    simp only [insertName, List.mem_singleton] at hmem
    injection hmem with h1 h2
    subst h1 h2
    simp only [List.mem_singleton] at hx
    exact Or.inl ⟨rfl, hx⟩
  | cons e rest ih =>
    obtain ⟨k, ks⟩ := e
    simp only [insertName] at hmem
    by_cases hk : k = i
    · rw [if_pos hk] at hmem
      rcases List.mem_cons.mp hmem with h | h
      · injection h with h1 h2
        subst h1
        subst h2
        by_cases hn : n ∈ ks
        · rw [if_pos hn] at hx
          exact Or.inr ⟨ks, List.mem_cons_self _ _, hx⟩
        · rw [if_neg hn] at hx
          rcases List.mem_append.mp hx with h | h
          · exact Or.inr ⟨ks, List.mem_cons_self _ _, h⟩
          · simp only [List.mem_singleton] at h
            exact Or.inl ⟨hk, h⟩
      · exact Or.inr ⟨ms, List.mem_cons_of_mem _ h, hx⟩
    · rw [if_neg hk] at hmem
      rcases List.mem_cons.mp hmem with h | h
      · exact Or.inr ⟨ms, h ▸ List.mem_cons_self _ _, hx⟩
      · rcases ih h with h' | ⟨ms0, hm0, hx0⟩
        · exact Or.inl h'
        · exact Or.inr ⟨ms0, List.mem_cons_of_mem _ hm0, hx0⟩

theorem insertName_mem_key (acc : List (Int × List String)) (i : Int)
    (n : String) (j : Int) (ms : List String)
    (hmem : (j, ms) ∈ insertName acc i n) :
    j = i ∨ ∃ ms0, (j, ms0) ∈ acc := by
  induction acc with
  | nil =>
    simp only [insertName, List.mem_singleton] at hmem
    injection hmem with h1 _
    exact Or.inl h1
  | cons e rest ih =>
    obtain ⟨k, ks⟩ := e
    simp only [insertName] at hmem
    by_cases hk : k = i
    · rw [if_pos hk] at hmem
      rcases List.mem_cons.mp hmem with h | h
      · injection h with h1 _
        exact Or.inl (h1.trans hk)
      · exact Or.inr ⟨ms, List.mem_cons_of_mem _ h⟩
    · rw [if_neg hk] at hmem
      rcases List.mem_cons.mp hmem with h | h
      · exact Or.inr ⟨ks, by rw [show j = k by injection h]; exact List.mem_cons_self _ _⟩
      · rcases ih h with h' | ⟨ms0, hm0⟩
        · exact Or.inl h'
        · exact Or.inr ⟨ms0, List.mem_cons_of_mem _ hm0⟩

theorem insertName_key_exists (acc : List (Int × List String)) (i : Int)
    (n : String) : ∃ ms, (i, ms) ∈ insertName acc i n := by
  induction acc with
  | nil => exact ⟨[n], List.mem_singleton.mpr rfl⟩
  | cons e rest ih =>
    obtain ⟨k, ks⟩ := e
    simp only [insertName]
    by_cases hk : k = i
    · rw [if_pos hk, hk]
      exact ⟨_, List.mem_cons_self _ _⟩
    · rw [if_neg hk]
      obtain ⟨ms, hm⟩ := ih
      exact ⟨ms, List.mem_cons_of_mem _ hm⟩

theorem insertName_preserves_key (acc : List (Int × List String)) (i : Int)
    (n : String) (j : Int) (ms : List String) (hmem : (j, ms) ∈ acc) :
    ∃ ms', (j, ms') ∈ insertName acc i n := by
  induction acc with
  | nil => simp at hmem
  | cons e rest ih =>
    obtain ⟨k, ks⟩ := e
    simp only [insertName]
    by_cases hk : k = i
    · rw [if_pos hk]
      rcases List.mem_cons.mp hmem with h | h
      · exact ⟨_, by rw [show j = k by injection h]; exact List.mem_cons_self _ _⟩
      · exact ⟨ms, List.mem_cons_of_mem _ h⟩
    · rw [if_neg hk]
      rcases List.mem_cons.mp hmem with h | h
      · exact ⟨ks, by rw [show j = k by injection h]; exact List.mem_cons_self _ _⟩
      · obtain ⟨ms', hm'⟩ := ih h
        exact ⟨ms', List.mem_cons_of_mem _ hm'⟩

theorem insertName_nonempty (acc : List (Int × List String)) (i : Int)
    (n : String) (hacc : ∀ j ms, (j, ms) ∈ acc → ms ≠ []) (j : Int)
    (ms : List String) (hmem : (j, ms) ∈ insertName acc i n) : ms ≠ [] := by
  induction acc with
  | nil =>
    simp only [insertName, List.mem_singleton] at hmem
    injection hmem with _ h2
    subst h2
    simp
  | cons e rest ih =>
    obtain ⟨k, ks⟩ := e
    simp only [insertName] at hmem
    by_cases hk : k = i
    · rw [if_pos hk] at hmem
      rcases List.mem_cons.mp hmem with h | h
      · injection h with _ h2
        subst h2
        by_cases hn : n ∈ ks
        · rw [if_pos hn]
          exact hacc k ks (List.mem_cons_self _ _)
        · rw [if_neg hn]
          simp
      · exact hacc j ms (List.mem_cons_of_mem _ h)
    · rw [if_neg hk] at hmem
      rcases List.mem_cons.mp hmem with h | h
      · injection h with h1 h2
        subst h1
        subst h2
        exact hacc j ms (List.mem_cons_self _ _)
      · exact ih (fun j' ms' hm' => hacc j' ms' (List.mem_cons_of_mem _ hm')) h

theorem insertName_keys_mem (acc : List (Int × List String)) (i : Int)
    (n : String) (j : Int) :
    j ∈ (insertName acc i n).map Prod.fst ↔
      j ∈ acc.map Prod.fst ∨ j = i := by
  induction acc with
  | nil => simp [insertName]
  | cons e rest ih =>
    obtain ⟨k, ks⟩ := e
    simp only [insertName]
    by_cases hk : k = i
    · rw [if_pos hk]
      subst hk
      simp only [List.map_cons, List.mem_cons]
      constructor
      · rintro (h | h)
        · exact Or.inl (Or.inl h)
        · exact Or.inl (Or.inr h)
      · rintro ((h | h) | h)
        · exact Or.inl h
        · exact Or.inr h
        · exact Or.inl h
    · rw [if_neg hk]
      simp only [List.map_cons, List.mem_cons, ih]
      tauto

theorem insertName_keys_nodup (acc : List (Int × List String)) (i : Int)
    (n : String) (hnd : (acc.map Prod.fst).Nodup) :
    ((insertName acc i n).map Prod.fst).Nodup := by
  induction acc with
  | nil => simp [insertName]
  | cons e rest ih =>
    obtain ⟨k, ks⟩ := e
    simp only [List.map_cons, List.nodup_cons] at hnd
    obtain ⟨hk_not, hnd_rest⟩ := hnd
    simp only [insertName]
    by_cases hk : k = i
    · rw [if_pos hk]
      simp only [List.map_cons, List.nodup_cons]
      exact ⟨hk_not, hnd_rest⟩
    · rw [if_neg hk]
      simp only [List.map_cons, List.nodup_cons]
      refine ⟨fun hmem => ?_, ih hnd_rest⟩
      rcases (insertName_keys_mem rest i n k).mp hmem with h | h
      · exact hk_not h
      · exact hk h

theorem keys_nodup_value_eq (m : List (Int × List String))
    (hnd : (m.map Prod.fst).Nodup) (j : Int) (ms ms' : List String)
    (h1 : (j, ms) ∈ m) (h2 : (j, ms') ∈ m) : ms = ms' := by
  induction m with
  | nil => simp at h1
  | cons e rest ih =>
    obtain ⟨k, ks⟩ := e
    simp only [List.map_cons, List.nodup_cons] at hnd
    obtain ⟨hk_not, hnd_rest⟩ := hnd
    rcases List.mem_cons.mp h1 with ha | ha <;>
      rcases List.mem_cons.mp h2 with hb | hb
    · injection ha with _ ha2
      injection hb with _ hb2
      rw [ha2, hb2]
    · injection ha with ha1 _
      exact absurd (ha1 ▸ List.mem_map.mpr ⟨(j, ms'), hb, rfl⟩) hk_not
    · injection hb with hb1 _
      exact absurd (hb1 ▸ List.mem_map.mpr ⟨(j, ms), ha, rfl⟩) hk_not
    · exact ih hnd_rest ha hb

/-! ### Lemmas about the annotation loop -/

theorem build_err_of_bad (cmap : Int → Option String)
    (acc : List (Int × List String)) (as : List Annotation)
    (hbad : ∃ a, a ∈ as ∧ cmap a.category_id = none) :
    buildImageCategories cmap acc as = .error () := by
  induction as generalizing acc with
  | nil => simp at hbad
  | cons a rest ih =>
    obtain ⟨b, hb, hbnone⟩ := hbad
    simp only [buildImageCategories]
    cases hc : cmap a.category_id with
    | none => rfl
    | some n =>
      rcases List.mem_cons.mp hb with h | h
      · rw [h] at hbnone
        rw [hbnone] at hc
        cases hc
      · exact ih _ ⟨b, h, hbnone⟩

theorem build_name_src (cmap : Int → Option String) (as : List Annotation)
    (acc m : List (Int × List String))
    (hok : buildImageCategories cmap acc as = .ok m) (j : Int)
    (ms : List String) (x : String) (hmem : (j, ms) ∈ m) (hx : x ∈ ms) :
    (∃ a, a ∈ as ∧ a.image_id = j ∧ cmap a.category_id = some x) ∨
      ∃ ms0, (j, ms0) ∈ acc ∧ x ∈ ms0 := by
  induction as generalizing acc with
  | nil =>
    simp only [buildImageCategories] at hok
    injection hok with hok
    subst hok
    exact Or.inr ⟨ms, hmem, hx⟩
  | cons a rest ih =>
    simp only [buildImageCategories] at hok
    cases hc : cmap a.category_id with
    | none => rw [hc] at hok; cases hok
    | some n =>
      rw [hc] at hok
      rcases ih _ hok with ⟨a', ha', h1, h2⟩ | ⟨ms0, hm0, hx0⟩
      · exact Or.inl ⟨a', List.mem_cons_of_mem _ ha', h1, h2⟩
      · rcases insertName_mem_name acc a.image_id n j ms0 x hm0 hx0 with
          ⟨h1, h2⟩ | ⟨ms1, hm1, hx1⟩
        · exact Or.inl ⟨a, List.mem_cons_self _ _, h1.symm ▸ rfl, h2 ▸ hc⟩
        · exact Or.inr ⟨ms1, hm1, hx1⟩

theorem build_key_src (cmap : Int → Option String) (as : List Annotation)
    (acc m : List (Int × List String))
    (hok : buildImageCategories cmap acc as = .ok m) (j : Int)
    (ms : List String) (hmem : (j, ms) ∈ m) :
    (∃ a, a ∈ as ∧ a.image_id = j) ∨ ∃ ms0, (j, ms0) ∈ acc := by
  induction as generalizing acc with
  | nil =>
    simp only [buildImageCategories] at hok
    injection hok with hok
    subst hok
    exact Or.inr ⟨ms, hmem⟩
  | cons a rest ih =>
    simp only [buildImageCategories] at hok
    cases hc : cmap a.category_id with
    | none => rw [hc] at hok; cases hok
    | some n =>
      rw [hc] at hok
      rcases ih _ hok with ⟨a', ha', h1⟩ | ⟨ms0, hm0⟩
      · exact Or.inl ⟨a', List.mem_cons_of_mem _ ha', h1⟩
      · rcases insertName_mem_key acc a.image_id n j ms0 hm0 with h | ⟨ms1, hm1⟩
        · exact Or.inl ⟨a, List.mem_cons_self _ _, h.symm⟩
        · exact Or.inr ⟨ms1, hm1⟩

theorem build_key_exists (cmap : Int → Option String) (as : List Annotation)
    (acc m : List (Int × List String))
    (hok : buildImageCategories cmap acc as = .ok m) (j : Int)
    (hsrc : (∃ a, a ∈ as ∧ a.image_id = j) ∨ ∃ ms, (j, ms) ∈ acc) :
    ∃ ms, (j, ms) ∈ m := by
  induction as generalizing acc with
  | nil =>
    simp only [buildImageCategories] at hok
    injection hok with hok
    subst hok
    rcases hsrc with ⟨a, ha, _⟩ | h
    · simp at ha
    · exact h
  | cons a rest ih =>
    simp only [buildImageCategories] at hok
    cases hc : cmap a.category_id with
    | none => rw [hc] at hok; cases hok
    | some n =>
      rw [hc] at hok
      rcases hsrc with ⟨a', ha', h1⟩ | ⟨ms, hm⟩
      · rcases List.mem_cons.mp ha' with h | h
        · refine ih _ hok (Or.inr ?_)
          rw [← h1, h]
          exact insertName_key_exists acc a.image_id n
        · exact ih _ hok (Or.inl ⟨a', h, h1⟩)
      · exact ih _ hok
          (Or.inr (insertName_preserves_key acc a.image_id n j ms hm))

theorem build_nonempty (cmap : Int → Option String) (as : List Annotation)
    (acc m : List (Int × List String))
    (hacc : ∀ j ms, (j, ms) ∈ acc → ms ≠ [])
    (hok : buildImageCategories cmap acc as = .ok m) (j : Int)
    (ms : List String) (hmem : (j, ms) ∈ m) : ms ≠ [] := by
  induction as generalizing acc with
  | nil =>
    simp only [buildImageCategories] at hok
    injection hok with hok
    subst hok
    exact hacc j ms hmem
  | cons a rest ih =>
    simp only [buildImageCategories] at hok
    cases hc : cmap a.category_id with
    | none => rw [hc] at hok; cases hok
    | some n =>
      rw [hc] at hok
      exact ih _ (fun j' ms' hm' =>
        insertName_nonempty acc a.image_id n hacc j' ms' hm') hok

theorem build_keys_nodup (cmap : Int → Option String) (as : List Annotation)
    (acc m : List (Int × List String)) (hacc : (acc.map Prod.fst).Nodup)
    (hok : buildImageCategories cmap acc as = .ok m) :
    (m.map Prod.fst).Nodup := by
  induction as generalizing acc with
  | nil =>
    simp only [buildImageCategories] at hok
    injection hok with hok
    subst hok
    exact hacc
  | cons a rest ih =>
    simp only [buildImageCategories] at hok
    cases hc : cmap a.category_id with
    | none => rw [hc] at hok; cases hok
    | some n =>
      rw [hc] at hok
      exact ih _ (insertName_keys_nodup acc a.image_id n hacc) hok

/-! ### The copy loop specification -/

theorem applyWrites_congr_fn (ws : List (List String × Nat))
    (f g : List String → Option Nat) (hfg : ∀ q, f q = g q)
    (p : List String) : applyWrites ws f p = applyWrites ws g p := by
  induction ws generalizing f g with
  | nil => exact hfg p
  | cons w rest ih =>
    obtain ⟨d, b⟩ := w
    simp only [applyWrites]
    exact ih _ _ fun q => by by_cases hq : q = d <;> simp [hq, hfg q]

theorem plannedWrites_congr (setOrder : List String → List String)
    (imap : Int → Option String) (img_dir output_dir : List String)
    (split_name : String) (r1 r2 : List String → Option Nat)
    (hr : ∀ g, r1 (img_dir ++ [g]) = r2 (img_dir ++ [g]))
    (es : List (Int × List String)) :
    plannedWrites setOrder imap img_dir output_dir split_name r1 es =
      plannedWrites setOrder imap img_dir output_dir split_name r2 es := by
  induction es with
  | nil => rfl
  | cons e rest ih =>
    obtain ⟨i, cats⟩ := e
    simp only [plannedWrites]
    cases imap i with
    | none => rfl
    | some fn =>
      cases (setOrder cats).head? with
      | none => rfl
      | some c =>
        simp only
        rw [hr fn, ih]

theorem plannedLog_congr (setOrder : List String → List String)
    (imap : Int → Option String) (img_dir : List String)
    (split_name : String) (r1 r2 : List String → Option Nat)
    (hr : ∀ g, r1 (img_dir ++ [g]) = r2 (img_dir ++ [g]))
    (es : List (Int × List String)) :
    plannedLog setOrder imap img_dir split_name r1 es =
      plannedLog setOrder imap img_dir split_name r2 es := by
  induction es with
  | nil => rfl
  | cons e rest ih =>
    obtain ⟨i, cats⟩ := e
    simp only [plannedLog]
    cases imap i with
    | none => rfl
    | some fn =>
      cases (setOrder cats).head? with
      | none => rfl
      | some c =>
        simp only
        rw [hr fn, ih]

/-- Main specification of a normally completing copy loop: the final file
map is the initial one with the planned writes applied, the final directory
predicate adds exactly the ancestors of the planned category directories,
and the log grows by exactly the planned lines. -/
theorem copyLoop_ok_spec (setOrder : List String → List String)
    (imap : Int → Option String) (img_dir output_dir : List String)
    (split_name : String)
    (hsep : output_dir.isPrefixOf img_dir = false)
    (entries : List (Int × List String)) (fs fs1 : FS)
    (log log1 : List CopyMsg)
    (hok : copyLoop setOrder imap img_dir output_dir split_name entries fs log
      = .ok fs1 log1) :
    (∀ p, fs1.files p =
      applyWrites (plannedWrites setOrder imap img_dir output_dir split_name
        fs.files entries) fs.files p) ∧
    (∀ p, fs1.isDir p = (fs.isDir p ||
      (plannedDirs setOrder imap output_dir split_name entries).any
        fun d => p.isPrefixOf d)) ∧
    log1 = log ++ plannedLog setOrder imap img_dir split_name fs.files
      entries := by
  induction entries generalizing fs log with
  | nil =>
    simp only [copyLoop] at hok
    injection hok with h1 h2
    subst h1
    subst h2
    refine ⟨fun p => rfl, fun p => by simp [plannedDirs], by simp [plannedLog]⟩
  | cons e rest ih =>
    obtain ⟨i, cats⟩ := e
    simp only [copyLoop] at hok
    cases hi : imap i with
    | none => rw [hi] at hok; cases hok
    | some fn =>
      rw [hi] at hok
      cases hc : (setOrder cats).head? with
      | none => rw [hc] at hok; cases hok
      | some c =>
        rw [hc] at hok
        simp only [FS.mkdirs, FS.copy2] at hok
        have hjoin : (output_dir ++ [split_name, c]) ++ [fn] =
            output_dir ++ [split_name, c, fn] := by simp
        cases hsrc : fs.files (img_dir ++ [fn]) with
        | some b =>
          rw [hsrc] at hok
          simp only [Option.isSome_some, if_true] at hok
          obtain ⟨hfiles, hdirs, hlog⟩ := ih _ _ hok
          have hne : ∀ g : String,
              img_dir ++ [g] ≠ output_dir ++ [split_name, c, fn] :=
            fun g hq =>
              dst_ne_src output_dir img_dir hsep split_name c fn g hq.symm
          have hwcongr : plannedWrites setOrder imap img_dir output_dir
              split_name (fun q => if q = output_dir ++ [split_name, c, fn]
                then some b else fs.files q) rest =
              plannedWrites setOrder imap img_dir output_dir split_name
                fs.files rest :=
            plannedWrites_congr _ _ _ _ _ _ _ (fun g => if_neg (hne g)) rest
          have hlcongr : plannedLog setOrder imap img_dir split_name
              (fun q => if q = output_dir ++ [split_name, c, fn]
                then some b else fs.files q) rest =
              plannedLog setOrder imap img_dir split_name fs.files rest :=
            plannedLog_congr _ _ _ _ _ _ (fun g => if_neg (hne g)) rest
          refine ⟨fun p => ?_, fun p => ?_, ?_⟩
          · rw [hfiles p]
            simp only [plannedWrites, hi, hc, hsrc]
            rw [applyWrites]
            simp only [hjoin]
            rw [hwcongr]
          · rw [hdirs p]
            simp only [plannedDirs, hi, hc, List.any_cons]
            rw [Bool.or_assoc]
          · rw [hlog]
            simp only [plannedLog, hi, hc, hsrc]
            simp only [hjoin]
            rw [hlcongr]
            simp
        | none =>
          rw [hsrc] at hok
          simp only [Option.isSome_none, Bool.false_eq_true, if_false] at hok
          obtain ⟨hfiles, hdirs, hlog⟩ := ih _ _ hok
          refine ⟨fun p => ?_, fun p => ?_, ?_⟩
          · rw [hfiles p]
            simp only [plannedWrites, hi, hc, hsrc]
          · rw [hdirs p]
            simp only [plannedDirs, hi, hc, List.any_cons]
            rw [Bool.or_assoc]
          · rw [hlog]
            simp only [plannedLog, hi, hc, hsrc]

/-- A normally completing copy loop resolved every image id and picked a
category for every entry. -/
theorem copyLoop_ok_clean (setOrder : List String → List String)
    (imap : Int → Option String) (img_dir output_dir : List String)
    (split_name : String) (entries : List (Int × List String)) (fs fs1 : FS)
    (log log1 : List CopyMsg)
    (hok : copyLoop setOrder imap img_dir output_dir split_name entries fs log
      = .ok fs1 log1) :
    ∀ i cats, (i, cats) ∈ entries →
      (imap i).isSome = true ∧ ((setOrder cats).head?).isSome = true := by
  induction entries generalizing fs log with
  | nil => intro i cats h; simp at h
  | cons e rest ih =>
    obtain ⟨j, cs⟩ := e
    intro i cats hmem
    simp only [copyLoop] at hok
    cases hj : imap j with
    | none => rw [hj] at hok; cases hok
    | some fn =>
      rw [hj] at hok
      cases hcs : (setOrder cs).head? with
      | none => rw [hcs] at hok; cases hok
      | some c =>
        rw [hcs] at hok
        simp only at hok
        rcases List.mem_cons.mp hmem with h | h
        · injection h with h1 h2
          subst h1
          subst h2
          exact ⟨by rw [hj]; rfl, by rw [hcs]; rfl⟩
        · by_cases hif : (((fs.mkdirs (output_dir ++ [split_name, c])).files
              (img_dir ++ [fn])).isSome : Prop)
          · rw [if_pos hif] at hok
            exact ih _ _ hok i cats h
          · rw [if_neg hif] at hok
            exact ih _ _ hok i cats h

/-- If every entry resolves and has a nonempty ordered category list, the
copy loop completes normally from any state. -/
theorem copyLoop_total (setOrder : List String → List String)
    (imap : Int → Option String) (img_dir output_dir : List String)
    (split_name : String) (entries : List (Int × List String))
    (hclean : ∀ i cats, (i, cats) ∈ entries →
      (imap i).isSome = true ∧ ((setOrder cats).head?).isSome = true)
    (fs : FS) (log : List CopyMsg) :
    ∃ fs1 log1,
      copyLoop setOrder imap img_dir output_dir split_name entries fs log
        = .ok fs1 log1 := by
  induction entries generalizing fs log with
  | nil => exact ⟨fs, log, rfl⟩
  | cons e rest ih =>
    obtain ⟨j, cs⟩ := e
    obtain ⟨h1, h2⟩ := hclean j cs (List.mem_cons_self _ _)
    obtain ⟨fn, hj⟩ := Option.isSome_iff_exists.mp h1
    obtain ⟨c, hcs⟩ := Option.isSome_iff_exists.mp h2
    simp only [copyLoop, hj, hcs]
    by_cases hif : (((fs.mkdirs (output_dir ++ [split_name, c])).files
        (img_dir ++ [fn])).isSome : Prop)
    · rw [if_pos hif]
      exact ih (fun i cats h => hclean i cats (List.mem_cons_of_mem _ h)) _ _
    · rw [if_neg hif]
      exact ih (fun i cats h => hclean i cats (List.mem_cons_of_mem _ h)) _ _

/-- If some entry's image id does not resolve, the copy loop aborts. -/
theorem copyLoop_err_of_missing (setOrder : List String → List String)
    (imap : Int → Option String) (img_dir output_dir : List String)
    (split_name : String) (entries : List (Int × List String)) (i : Int)
    (cats : List String) (hmem : (i, cats) ∈ entries) (hmiss : imap i = none)
    (fs : FS) (log : List CopyMsg) :
    ∃ fs' log',
      copyLoop setOrder imap img_dir output_dir split_name entries fs log
        = .err fs' log' := by
  induction entries generalizing fs log with
  | nil => simp at hmem
  | cons e rest ih =>
    obtain ⟨j, cs⟩ := e
    simp only [copyLoop]
    cases hj : imap j with
    | none => exact ⟨fs, log, rfl⟩
    | some fn =>
      have hrest : (i, cats) ∈ rest := by
        rcases List.mem_cons.mp hmem with h | h
        · injection h with h1 _
          rw [h1] at hmiss
          rw [hmiss] at hj
          cases hj
        · exact h
      cases hcs : (setOrder cs).head? with
      | none => exact ⟨fs, log, rfl⟩
      | some c =>
        simp only
        by_cases hif : (((fs.mkdirs (output_dir ++ [split_name, c])).files
            (img_dir ++ [fn])).isSome : Prop)
        · rw [if_pos hif]
          exact ih hrest _ _
        · rw [if_neg hif]
          exact ih hrest _ _

/-- Every planned write's destination comes from an entry: it has the shape
`output_dir/split_name/<category>/<filename>` and carries the source
content. -/
theorem plannedWrites_mem (setOrder : List String → List String)
    (imap : Int → Option String) (img_dir output_dir : List String)
    (split_name : String) (read : List String → Option Nat)
    (es : List (Int × List String)) (d : List String) (v : Nat)
    (hmem : (d, v) ∈ plannedWrites setOrder imap img_dir output_dir
      split_name read es) :
    ∃ i cats fn c, (i, cats) ∈ es ∧ imap i = some fn ∧
      (setOrder cats).head? = some c ∧
      d = output_dir ++ [split_name, c, fn] ∧
      read (img_dir ++ [fn]) = some v := by
  induction es with
  | nil => simp [plannedWrites] at hmem
  | cons e rest ih =>
    obtain ⟨i, cats⟩ := e
    simp only [plannedWrites] at hmem
    cases hi : imap i with
    | none => rw [hi] at hmem; simp at hmem
    | some fn =>
      rw [hi] at hmem
      cases hc : (setOrder cats).head? with
      | none => rw [hc] at hmem; simp at hmem
      | some c =>
        rw [hc] at hmem
        simp only at hmem
        cases hr : read (img_dir ++ [fn]) with
        | some b =>
          rw [hr] at hmem
          rcases List.mem_cons.mp hmem with h | h
          · injection h with h1 h2
            subst h1
            subst h2
            exact ⟨i, cats, fn, c, List.mem_cons_self _ _, hi, hc, rfl, hr⟩
          · obtain ⟨i', cats', fn', c', hm, h1, h2, h3, h4⟩ := ih h
            exact ⟨i', cats', fn', c', List.mem_cons_of_mem _ hm, h1, h2,
              h3, h4⟩
        | none =>
          rw [hr] at hmem
          obtain ⟨i', cats', fn', c', hm, h1, h2, h3, h4⟩ := ih hmem
          exact ⟨i', cats', fn', c', List.mem_cons_of_mem _ hm, h1, h2,
            h3, h4⟩

/-- Every entry whose source file exists contributes its planned write,
provided every entry resolves (no early abort of the traversal). -/
theorem plannedWrites_of_entry (setOrder : List String → List String)
    (imap : Int → Option String) (img_dir output_dir : List String)
    (split_name : String) (read : List String → Option Nat)
    (es : List (Int × List String))
    (hclean : ∀ i cats, (i, cats) ∈ es →
      (imap i).isSome = true ∧ ((setOrder cats).head?).isSome = true)
    (i : Int) (cats : List String) (fn c : String) (b : Nat)
    (hmem : (i, cats) ∈ es) (hi : imap i = some fn)
    (hc : (setOrder cats).head? = some c)
    (hb : read (img_dir ++ [fn]) = some b) :
    (output_dir ++ [split_name, c, fn], b) ∈
      plannedWrites setOrder imap img_dir output_dir split_name read es := by
  induction es with
  | nil => simp at hmem
  | cons e rest ih =>
    obtain ⟨j, cs⟩ := e
    obtain ⟨h1, h2⟩ := hclean j cs (List.mem_cons_self _ _)
    obtain ⟨fn', hj⟩ := Option.isSome_iff_exists.mp h1
    obtain ⟨c', hcs⟩ := Option.isSome_iff_exists.mp h2
    simp only [plannedWrites, hj, hcs]
    rcases List.mem_cons.mp hmem with h | h
    · injection h with ha hb'
      subst ha
      subst hb'
      rw [hj] at hi
      injection hi with hi
      subst hi
      rw [hcs] at hc
      injection hc with hc
      subst hc
      rw [hb]
      exact List.mem_cons_self _ _
    · have := ih (fun i' cats' h' => hclean i' cats'
        (List.mem_cons_of_mem _ h')) h
      cases hr : read (img_dir ++ [fn']) with
      | some b' => exact List.mem_cons_of_mem _ this
      | none => exact this

/-- Every entry contributes its planned category directory, provided every
entry resolves. -/
theorem plannedDirs_of_entry (setOrder : List String → List String)
    (imap : Int → Option String) (output_dir : List String)
    (split_name : String) (es : List (Int × List String))
    (hclean : ∀ i cats, (i, cats) ∈ es →
      (imap i).isSome = true ∧ ((setOrder cats).head?).isSome = true)
    (i : Int) (cats : List String) (c : String) (hmem : (i, cats) ∈ es)
    (hc : (setOrder cats).head? = some c) :
    (output_dir ++ [split_name, c]) ∈
      plannedDirs setOrder imap output_dir split_name es := by
  induction es with
  | nil => simp at hmem
  | cons e rest ih =>
    obtain ⟨j, cs⟩ := e
    obtain ⟨h1, h2⟩ := hclean j cs (List.mem_cons_self _ _)
    obtain ⟨fn', hj⟩ := Option.isSome_iff_exists.mp h1
    obtain ⟨c', hcs⟩ := Option.isSome_iff_exists.mp h2
    simp only [plannedDirs, hj, hcs]
    rcases List.mem_cons.mp hmem with h | h
    · injection h with ha hb'
      subst ha
      subst hb'
      rw [hcs] at hc
      injection hc with hc
      subst hc
      exact List.mem_cons_self _ _
    · exact List.mem_cons_of_mem _
        (ih (fun i' cats' h' => hclean i' cats'
          (List.mem_cons_of_mem _ h')) h)

/-- Every log line of a normally completing copy loop comes from an entry
whose source file exists. -/
theorem plannedLog_mem (setOrder : List String → List String)
    (imap : Int → Option String) (img_dir : List String)
    (split_name : String) (read : List String → Option Nat)
    (es : List (Int × List String)) (msg : CopyMsg)
    (hmem : msg ∈ plannedLog setOrder imap img_dir split_name read es) :
    ∃ i cats c b, (i, cats) ∈ es ∧ imap i = some msg.filename ∧
      (setOrder cats).head? = some c ∧ msg.category = c ∧
      msg.split = split_name ∧
      read (img_dir ++ [msg.filename]) = some b := by
  induction es with
  | nil => simp [plannedLog] at hmem
  | cons e rest ih =>
    obtain ⟨i, cats⟩ := e
    simp only [plannedLog] at hmem
    cases hi : imap i with
    | none => rw [hi] at hmem; simp at hmem
    | some fn =>
      rw [hi] at hmem
      cases hc : (setOrder cats).head? with
      | none => rw [hc] at hmem; simp at hmem
      | some c =>
        rw [hc] at hmem
        simp only at hmem
        cases hr : read (img_dir ++ [fn]) with
        | some b =>
          rw [hr] at hmem
          rcases List.mem_cons.mp hmem with h | h
          · subst h
            exact ⟨i, cats, c, b, List.mem_cons_self _ _, hi, hc, rfl, rfl,
              hr⟩
          · obtain ⟨i', cats', c', b', hm, h1, h2, h3, h4, h5⟩ := ih h
            exact ⟨i', cats', c', b', List.mem_cons_of_mem _ hm, h1, h2, h3,
              h4, h5⟩
        | none =>
          rw [hr] at hmem
          obtain ⟨i', cats', c', b', hm, h1, h2, h3, h4, h5⟩ := ih hmem
          exact ⟨i', cats', c', b', List.mem_cons_of_mem _ hm, h1, h2, h3,
            h4, h5⟩

/-! ### Process-level helpers and sample inputs -/

theorem head?_mem_self (l : List String) (c : String) (h : l.head? = some c) :
    c ∈ l := by
  cases l with
  | nil => cases h
  | cons x xs =>
    injection h with h
    rw [h]
    exact List.mem_cons_self _ _

theorem setOrder_head_of_perm (setOrder : List String → List String)
    (hperm : ∀ l, (setOrder l).Perm l) (cats : List String)
    (hne : cats ≠ []) :
    ∃ c, (setOrder cats).head? = some c ∧ c ∈ cats := by
  cases hso : setOrder cats with
  | nil =>
    have h := hperm cats
    rw [hso] at h
    exact absurd h.symm.eq_nil hne
  | cons x xs =>
    refine ⟨x, rfl, ?_⟩
    have h := (hperm cats).mem_iff.mp (by rw [hso]; exact List.mem_cons_self _ _)
    exact h

theorem process_split_ok_inv (setOrder : List String → List String)
    (data : CocoData) (img_dir output_dir : List String)
    (split_name : String) (fs fs1 : FS) (log1 : List CopyMsg)
    (hok : process_split setOrder data img_dir output_dir split_name fs =
      RunResult.ok fs1 log1) :
    ∃ m, buildImageCategories (category_map data) [] data.annotations =
        .ok m ∧
      copyLoop setOrder (image_map data) img_dir output_dir split_name m fs []
        = RunResult.ok fs1 log1 := by
  unfold process_split at hok
  cases hb : buildImageCategories (category_map data) [] data.annotations with
  | error e => rw [hb] at hok; cases hok
  | ok m =>
    rw [hb] at hok
    exact ⟨m, rfl, hok⟩

theorem RunResult.eq_ok (r : RunResult) (h : r.isOk = true) :
    r = RunResult.ok r.fsOf r.logOf := by
  cases r with
  | ok f l => rfl
  | err f l => cases h

/-- Sample annotation data: one category, one image, one annotation. -/
def carddSample : CocoData :=
  ⟨[⟨1, "dent"⟩], [⟨10, "a.jpg"⟩], [⟨10, 1⟩]⟩

/-- Sample data: one image annotated in two distinct categories. -/
def carddMulti : CocoData :=
  ⟨[⟨1, "dent"⟩, ⟨2, "scratch"⟩], [⟨10, "a.jpg"⟩], [⟨10, 1⟩, ⟨10, 2⟩]⟩

/-- Sample data: image 10 has zero annotations, image 11 has one. -/
def carddZero : CocoData :=
  ⟨[⟨2, "scratch"⟩], [⟨10, "a.jpg"⟩, ⟨11, "b.jpg"⟩], [⟨11, 2⟩]⟩

/-- Sample data: the only annotation references category id 99 which is not
in the category list. -/
def carddBadCat : CocoData :=
  ⟨[⟨1, "dent"⟩], [⟨10, "a.jpg"⟩], [⟨10, 99⟩]⟩

/-- Sample data: the only annotation references image id 10 which is not in
the image list. -/
def carddNoImage : CocoData :=
  ⟨[⟨1, "dent"⟩], [], [⟨10, 1⟩]⟩

/-- Sample filesystem: sources `a.jpg` and `b.jpg` under `c/train2017`,
nothing else. -/
def fsTrain : FS :=
  ⟨fun _ => false, fun p =>
    if p = ["c", "train2017", "a.jpg"] then some 42
    else if p = ["c", "train2017", "b.jpg"] then some 7 else none⟩

/-- Sample filesystem with no files at all. -/
def fsEmpty : FS := ⟨fun _ => false, fun _ => none⟩

/-- Sample filesystem with one source image in each of the three split
folders of `c`. -/
def fsAll : FS :=
  ⟨fun _ => false, fun p =>
    if p = ["c", "train2017", "a.jpg"] then some 42
    else if p = ["c", "val2017", "a.jpg"] then some 43
    else if p = ["c", "test2017", "a.jpg"] then some 44 else none⟩

/-! ### The claims -/

/-- C3: an annotation whose `category_id` is not a key of `category_map`
makes `process_split` fail with an unhandled lookup error, aborting before
any image of the split is copied: the filesystem is unchanged and nothing
was logged. -/
theorem unknown_category_id_aborts_before_any_copy
    (setOrder : List String → List String) (data : CocoData)
    (img_dir output_dir : List String) (split_name : String) (fs : FS)
    (hbad : ∃ a, a ∈ data.annotations ∧
      category_map data a.category_id = none) :
    process_split setOrder data img_dir output_dir split_name fs =
      RunResult.err fs [] := by
  unfold process_split
  rw [build_err_of_bad (category_map data) [] data.annotations hbad]

/-- Witness for C3 at a concrete input. -/
theorem unknown_category_id_aborts_before_any_copy_witness :
    process_split id carddBadCat ["c", "train2017"] ["o"] "train" fsTrain =
      RunResult.err fsTrain [] :=
  unknown_category_id_aborts_before_any_copy id carddBadCat
    ["c", "train2017"] ["o"] "train" fsTrain
    ⟨⟨10, 99⟩, by decide, by decide⟩

/-- C7: an image id that has an annotation but no entry in the image list
makes `process_split` fail with an unhandled lookup error, aborting the
run. -/
theorem missing_image_id_aborts (setOrder : List String → List String)
    (data : CocoData) (img_dir output_dir : List String)
    (split_name : String) (fs : FS) (i : Int)
    (ha : ∃ a, a ∈ data.annotations ∧ a.image_id = i)
    (hno : ∀ img, img ∈ data.images → img.id ≠ i) :
    ∃ fs' log',
      process_split setOrder data img_dir output_dir split_name fs =
        RunResult.err fs' log' := by
  unfold process_split
  cases hb : buildImageCategories (category_map data) [] data.annotations with
  | error e => exact ⟨fs, [], rfl⟩
  | ok m =>
    obtain ⟨ms, hm⟩ := build_key_exists (category_map data) data.annotations
      [] m hb i (Or.inl ha)
    have hmiss : image_map data i = none := by
      cases hi : image_map data i with
      | none => rfl
      | some fn =>
        obtain ⟨img, hmem, hid, _⟩ := image_map_some data i fn hi
        exact absurd hid (hno img hmem)
    exact copyLoop_err_of_missing setOrder (image_map data) img_dir
      output_dir split_name m i ms hm hmiss fs []

/-- Witness for C7 at a concrete input. -/
theorem missing_image_id_aborts_witness :
    ∃ fs' log',
      process_split id carddNoImage ["c", "train2017"] ["o"] "train" fsTrain
        = RunResult.err fs' log' :=
  missing_image_id_aborts id carddNoImage ["c", "train2017"] ["o"] "train"
    fsTrain 10 ⟨⟨10, 1⟩, by decide, rfl⟩
    (fun img hmem => absurd hmem (List.not_mem_nil img))

/-- C1: every file that `process_split` copies lands at
`output_dir/<split_name>/<category_name>/<file_name>`, where the file name
is the image's original name from the images list and the category name is
one of the category names referenced by that image's annotations (the
element that `list(categories)[0]` picked). -/
theorem copies_only_into_annotated_category_paths
    (setOrder : List String → List String) (data : CocoData)
    (img_dir output_dir : List String) (split_name : String)
    (fs fs1 : FS) (log1 : List CopyMsg)
    (hperm : ∀ l, (setOrder l).Perm l)
    (hsep : output_dir.isPrefixOf img_dir = false)
    (hok : process_split setOrder data img_dir output_dir split_name fs =
      RunResult.ok fs1 log1) :
    ∀ p, fs1.files p ≠ fs.files p →
      ∃ img cat, img ∈ data.images ∧
        (∃ a, a ∈ data.annotations ∧ a.image_id = img.id ∧
          category_map data a.category_id = some cat) ∧
        p = output_dir ++ [split_name, cat, img.file_name] := by
  obtain ⟨m, hb, hloop⟩ := process_split_ok_inv setOrder data img_dir
    output_dir split_name fs fs1 log1 hok
  obtain ⟨hfiles, hdirs, hlog⟩ := copyLoop_ok_spec setOrder (image_map data)
    img_dir output_dir split_name hsep m fs fs1 [] log1 hloop
  intro p hp
  rw [hfiles p, applyWrites_eq_lastWrite] at hp
  rcases hlw : lastWrite (plannedWrites setOrder (image_map data) img_dir
      output_dir split_name fs.files m) p with _ | v
  · rw [hlw] at hp
    exact absurd rfl hp
  · have hmemW := lastWrite_mem _ _ _ hlw
    obtain ⟨i, cats, fn, c, hment, hi, hc, hd, hread⟩ :=
      plannedWrites_mem setOrder (image_map data) img_dir output_dir
        split_name fs.files m p v hmemW
    obtain ⟨img, himg, hid, hfn⟩ := image_map_some data i fn hi
    have hcmem : c ∈ cats :=
      (hperm cats).mem_iff.mp (head?_mem_self _ _ hc)
    rcases build_name_src (category_map data) data.annotations [] m hb i
        cats c hment hcmem with ⟨a, hamem, haid, hacat⟩ | ⟨ms0, hms0, _⟩
    · refine ⟨img, c, himg, ⟨a, hamem, haid.trans hid.symm, hacat⟩, ?_⟩
      rw [hd, hfn]
    · simp at hms0

/-- Witness for C1 at a concrete input. -/
theorem copies_only_into_annotated_category_paths_witness :
    ∃ img cat, img ∈ carddSample.images ∧
      (∃ a, a ∈ carddSample.annotations ∧ a.image_id = img.id ∧
        category_map carddSample a.category_id = some cat) ∧
      ["o", "train", "dent", "a.jpg"] =
        ["o"] ++ ["train", cat, img.file_name] :=
  copies_only_into_annotated_category_paths id carddSample
    ["c", "train2017"] ["o"] "train" fsTrain _ _
    (fun l => List.Perm.refl l) (by decide)
    (RunResult.eq_ok _ (by decide)) ["o", "train", "dent", "a.jpg"]
    (by decide)

/-- C9: for an annotated image id that resolves in `image_map`, the category
directory `output_dir/<split_name>/<category>` is created even when the
image's source file does not exist on disk, so a run over missing sources
can leave empty category directories behind. -/
theorem category_dir_created_even_without_source
    (setOrder : List String → List String) (data : CocoData)
    (img_dir output_dir : List String) (split_name : String)
    (fs fs1 : FS) (log1 : List CopyMsg) (m : List (Int × List String))
    (i : Int) (cats : List String) (fn c : String)
    (hsep : output_dir.isPrefixOf img_dir = false)
    (hb : buildImageCategories (category_map data) [] data.annotations =
      .ok m)
    (hent : (i, cats) ∈ m) (hfn : image_map data i = some fn)
    (hc : (setOrder cats).head? = some c)
    (hmiss : fs.files (img_dir ++ [fn]) = none)
    (hok : process_split setOrder data img_dir output_dir split_name fs =
      RunResult.ok fs1 log1) :
    fs1.isDir (output_dir ++ [split_name, c]) = true := by
  obtain ⟨m', hb', hloop⟩ := process_split_ok_inv setOrder data img_dir
    output_dir split_name fs fs1 log1 hok
  rw [hb] at hb'
  injection hb' with hb'
  subst hb'
  obtain ⟨hfiles, hdirs, hlog⟩ := copyLoop_ok_spec setOrder (image_map data)
    img_dir output_dir split_name hsep m fs fs1 [] log1 hloop
  have hclean := copyLoop_ok_clean setOrder (image_map data) img_dir
    output_dir split_name m fs fs1 [] log1 hloop
  have hmem := plannedDirs_of_entry setOrder (image_map data) output_dir
    split_name m hclean i cats c hent hc
  rw [hdirs]
  have hany : (plannedDirs setOrder (image_map data) output_dir split_name
      m).any (fun d => (output_dir ++ [split_name, c]).isPrefixOf d)
      = true :=
    List.any_eq_true.mpr ⟨output_dir ++ [split_name, c], hmem,
      isPrefixOf_refl _⟩
  rw [hany, Bool.or_true]

/-- Witness for C9 at a concrete input: the source file is absent, yet the
category directory exists after the run (and, this being the only image, no
file was copied anywhere). -/
theorem category_dir_created_even_without_source_witness :
    (process_split id carddSample ["c", "train2017"] ["o"] "train"
        fsEmpty).fsOf.isDir (["o"] ++ ["train", "dent"]) = true :=
  category_dir_created_even_without_source id carddSample ["c", "train2017"]
    ["o"] "train" fsEmpty _ _ [(10, ["dent"])] 10 ["dent"] "a.jpg" "dent"
    (by decide) rfl (by decide) (by decide) rfl (by decide)
    (RunResult.eq_ok
      (process_split id carddSample ["c", "train2017"] ["o"] "train" fsEmpty)
      (by decide))

/-- C4: an image with zero annotations is never copied: no category path
`output_dir/<split_name>/<c>/<its file name>` changes (assuming its file
name is not shared by another image entry). -/
theorem zero_annotation_image_never_copied
    (setOrder : List String → List String) (data : CocoData)
    (img_dir output_dir : List String) (split_name : String)
    (fs fs1 : FS) (log1 : List CopyMsg) (img : CocoImage)
    (hsep : output_dir.isPrefixOf img_dir = false)
    (himg : img ∈ data.images)
    (hzero : ∀ a, a ∈ data.annotations → a.image_id ≠ img.id)
    (huniq : ∀ img', img' ∈ data.images →
      img'.file_name = img.file_name → img' = img)
    (hok : process_split setOrder data img_dir output_dir split_name fs =
      RunResult.ok fs1 log1) :
    ∀ c, fs1.files (output_dir ++ [split_name, c, img.file_name]) =
      fs.files (output_dir ++ [split_name, c, img.file_name]) := by
  obtain ⟨m, hb, hloop⟩ := process_split_ok_inv setOrder data img_dir
    output_dir split_name fs fs1 log1 hok
  obtain ⟨hfiles, hdirs, hlog⟩ := copyLoop_ok_spec setOrder (image_map data)
    img_dir output_dir split_name hsep m fs fs1 [] log1 hloop
  intro c
  rw [hfiles, applyWrites_eq_lastWrite]
  have hnone : lastWrite (plannedWrites setOrder (image_map data) img_dir
      output_dir split_name fs.files m)
      (output_dir ++ [split_name, c, img.file_name]) = none := by
    refine lastWrite_eq_none _ _ fun d v hmem heq => ?_
    obtain ⟨j, cs, fn', c', hment, hj, hc', hd, hread⟩ :=
      plannedWrites_mem setOrder (image_map data) img_dir output_dir
        split_name fs.files m d v hmem
    rw [heq] at hd
    have htl := List.append_cancel_left hd
    injection htl with _ htl
    injection htl with hceq htl
    injection htl with hfeq _
    obtain ⟨img', himg', hid', hfn'⟩ := image_map_some data j fn' hj
    have himg_eq : img' = img := huniq img' himg' (hfn'.trans hfeq.symm)
    rcases build_key_src (category_map data) data.annotations [] m hb j cs
        hment with ⟨a, hamem, haid⟩ | ⟨ms0, hms0⟩
    · exact hzero a hamem (haid.trans (hid'.symm.trans
        (congrArg CocoImage.id himg_eq)))
    · simp at hms0
  rw [hnone]

/-- Witness for C4 at a concrete input: image 10 has no annotations; image
11 does and its file is copied, but no `a.jpg` appears anywhere under the
output split. -/
theorem zero_annotation_image_never_copied_witness :
    (process_split id carddZero ["c", "train2017"] ["o"] "train"
        fsTrain).fsOf.files (["o"] ++ ["train", "scratch", "a.jpg"]) =
      fsTrain.files (["o"] ++ ["train", "scratch", "a.jpg"]) :=
  zero_annotation_image_never_copied id carddZero ["c", "train2017"] ["o"]
    "train" fsTrain _ _ ⟨10, "a.jpg"⟩ (by decide) (by decide) (by decide)
    (by decide)
    (RunResult.eq_ok
      (process_split id carddZero ["c", "train2017"] ["o"] "train" fsTrain)
      (by decide))
    "scratch"

/-- C6: an annotated image whose source file is absent from the split's
image folder produces no output file and no failure: provided every
annotated image id resolves in `image_map`, the split completes normally,
no category path for that file name changes, and no log line mentions it. -/
theorem missing_source_file_skipped_silently
    (setOrder : List String → List String) (data : CocoData)
    (img_dir output_dir : List String) (split_name : String) (fs : FS)
    (m : List (Int × List String)) (i : Int) (cats : List String)
    (fn : String)
    (hperm : ∀ l, (setOrder l).Perm l)
    (hsep : output_dir.isPrefixOf img_dir = false)
    (hb : buildImageCategories (category_map data) [] data.annotations =
      .ok m)
    (hent : (i, cats) ∈ m) (hfn : image_map data i = some fn)
    (hmiss : fs.files (img_dir ++ [fn]) = none)
    (hres : ∀ j cs, (j, cs) ∈ m → (image_map data j).isSome = true) :
    ∃ fs1 log1,
      process_split setOrder data img_dir output_dir split_name fs =
        RunResult.ok fs1 log1 ∧
      (∀ c, fs1.files (output_dir ++ [split_name, c, fn]) =
        fs.files (output_dir ++ [split_name, c, fn])) ∧
      ∀ msg, msg ∈ log1 → msg.filename ≠ fn := by
  have hclean : ∀ j cs, (j, cs) ∈ m →
      (image_map data j).isSome = true ∧
      ((setOrder cs).head?).isSome = true := by
    intro j cs hm
    refine ⟨hres j cs hm, ?_⟩
    have hne : cs ≠ [] := build_nonempty (category_map data)
      data.annotations [] m (fun _ _ h => absurd h (List.not_mem_nil _))
      hb j cs hm
    obtain ⟨c, hc, _⟩ := setOrder_head_of_perm setOrder hperm cs hne
    rw [hc]
    rfl
  obtain ⟨fs1, log1, hloop⟩ := copyLoop_total setOrder (image_map data)
    img_dir output_dir split_name m hclean fs []
  obtain ⟨hfiles, hdirs, hlog⟩ := copyLoop_ok_spec setOrder (image_map data)
    img_dir output_dir split_name hsep m fs fs1 [] log1 hloop
  refine ⟨fs1, log1, ?_, ?_, ?_⟩
  · unfold process_split
    rw [hb]
    exact hloop
  · intro c
    rw [hfiles, applyWrites_eq_lastWrite]
    have hnone : lastWrite (plannedWrites setOrder (image_map data) img_dir
        output_dir split_name fs.files m)
        (output_dir ++ [split_name, c, fn]) = none := by
      refine lastWrite_eq_none _ _ fun d v hmem heq => ?_
      obtain ⟨j, cs, fn', c', hment, hj, hc', hd, hread⟩ :=
        plannedWrites_mem setOrder (image_map data) img_dir output_dir
          split_name fs.files m d v hmem
      rw [heq] at hd
      have htl := List.append_cancel_left hd
      injection htl with _ htl
      injection htl with _ htl
      injection htl with hfeq _
      rw [← hfeq] at hread
      rw [hmiss] at hread
      cases hread
    rw [hnone]
  · intro msg hmem hfne
    rw [hlog] at hmem
    simp only [List.nil_append] at hmem
    obtain ⟨j, cs, c', b, hment, hj, hc', _, _, hread⟩ :=
      plannedLog_mem setOrder (image_map data) img_dir split_name fs.files m
        msg hmem
    rw [hfne] at hread
    rw [hmiss] at hread
    cases hread

/-- Witness for C6 at a concrete input. -/
theorem missing_source_file_skipped_silently_witness :
    ∃ fs1 log1,
      process_split id carddSample ["c", "train2017"] ["o"] "train" fsEmpty
        = RunResult.ok fs1 log1 ∧
      (∀ c, fs1.files (["o"] ++ ["train", c, "a.jpg"]) =
        fsEmpty.files (["o"] ++ ["train", c, "a.jpg"])) ∧
      ∀ msg, msg ∈ log1 → msg.filename ≠ "a.jpg" :=
  missing_source_file_skipped_silently id carddSample ["c", "train2017"]
    ["o"] "train" fsEmpty [(10, ["dent"])] 10 ["dent"] "a.jpg"
    (fun l => List.Perm.refl l) (by decide) rfl (by decide) (by decide)
    (by decide)
    (by
      intro j cs h
      simp only [List.mem_singleton] at h
      injection h with h1 _
      subst h1
      decide)

/-- C2: an image annotated in two or more distinct categories whose source
file exists is copied into exactly one category directory of the split: its
file appears under the selected category and under no other category
(starting from an output region with no file of that name, and with the
file name unique to this image). -/
theorem multi_category_image_copied_exactly_once
    (setOrder : List String → List String) (data : CocoData)
    (img_dir output_dir : List String) (split_name : String)
    (fs fs1 : FS) (log1 : List CopyMsg) (m : List (Int × List String))
    (i : Int) (cats : List String) (fn : String) (b : Nat)
    (hperm : ∀ l, (setOrder l).Perm l)
    (hsep : output_dir.isPrefixOf img_dir = false)
    (hb : buildImageCategories (category_map data) [] data.annotations =
      .ok m)
    (hent : (i, cats) ∈ m) (htwo : 2 ≤ cats.length)
    (hfn : image_map data i = some fn)
    (hsrc : fs.files (img_dir ++ [fn]) = some b)
    (hclean0 : ∀ p, output_dir.isPrefixOf p = true → fs.files p = none)
    (huniq : ∀ j cs, (j, cs) ∈ m → j ≠ i → image_map data j ≠ some fn)
    (hok : process_split setOrder data img_dir output_dir split_name fs =
      RunResult.ok fs1 log1) :
    ∃ c, c ∈ cats ∧
      fs1.files (output_dir ++ [split_name, c, fn]) = some b ∧
      ∀ c', c' ≠ c →
        fs1.files (output_dir ++ [split_name, c', fn]) = none := by
  obtain ⟨m', hb', hloop⟩ := process_split_ok_inv setOrder data img_dir
    output_dir split_name fs fs1 log1 hok
  rw [hb] at hb'
  injection hb' with hb'
  subst hb'
  obtain ⟨hfiles, hdirs, hlog⟩ := copyLoop_ok_spec setOrder (image_map data)
    img_dir output_dir split_name hsep m fs fs1 [] log1 hloop
  have hclean := copyLoop_ok_clean setOrder (image_map data) img_dir
    output_dir split_name m fs fs1 [] log1 hloop
  have hnd : (m.map Prod.fst).Nodup :=
    build_keys_nodup (category_map data) data.annotations [] m
      (by simp) hb
  have hne : cats ≠ [] := fun h => by rw [h] at htwo; cases htwo
  obtain ⟨c, hc, hcmem⟩ := setOrder_head_of_perm setOrder hperm cats hne
  have hkey : ∀ d v, (d, v) ∈ plannedWrites setOrder (image_map data)
      img_dir output_dir split_name fs.files m →
      ∀ c'', d = output_dir ++ [split_name, c'', fn] →
      c'' = c ∧ v = b := by
    intro d v hmem c'' hd
    obtain ⟨j, cs, fn', c3, hment, hj, hc3, hd3, hread⟩ :=
      plannedWrites_mem setOrder (image_map data) img_dir output_dir
        split_name fs.files m d v hmem
    rw [hd] at hd3
    have htl := List.append_cancel_left hd3
    injection htl with _ htl
    injection htl with hceq htl
    injection htl with hfeq _
    have hji : j = i := by
      by_contra hji
      exact huniq j cs hment hji (by rw [hj, hfeq])
    subst hji
    have hcs : cs = cats := keys_nodup_value_eq m hnd j cs cats hment hent
    subst hcs
    rw [hc] at hc3
    injection hc3 with hc3
    constructor
    · rw [hceq, hc3]
    · rw [← hfeq] at hread
      rw [hsrc] at hread
      injection hread with hv
      exact hv.symm
  refine ⟨c, hcmem, ?_, ?_⟩
  · rw [hfiles, applyWrites_eq_lastWrite]
    have hw : (output_dir ++ [split_name, c, fn], b) ∈
        plannedWrites setOrder (image_map data) img_dir output_dir
          split_name fs.files m :=
      plannedWrites_of_entry setOrder (image_map data) img_dir output_dir
        split_name fs.files m hclean i cats fn c b hent hfn hc hsrc
    have hlw : lastWrite (plannedWrites setOrder (image_map data) img_dir
        output_dir split_name fs.files m)
        (output_dir ++ [split_name, c, fn]) = some b :=
      lastWrite_eq_some _ _ b hw fun v hv =>
        (hkey _ v hv c rfl).2
    rw [hlw]
  · intro c' hc'
    rw [hfiles, applyWrites_eq_lastWrite]
    have hnone : lastWrite (plannedWrites setOrder (image_map data) img_dir
        output_dir split_name fs.files m)
        (output_dir ++ [split_name, c', fn]) = none := by
      refine lastWrite_eq_none _ _ fun d v hmem heq => ?_
      exact hc' ((hkey d v hmem c' heq).1)
    rw [hnone]
    exact hclean0 _ (isPrefixOf_append output_dir [split_name, c', fn])

/-- Witness for C2 at a concrete input: image 10 is annotated as both
"dent" and "scratch". -/
theorem multi_category_image_copied_exactly_once_witness :
    ∃ c, c ∈ ["dent", "scratch"] ∧
      (process_split id carddMulti ["c", "train2017"] ["o"] "train"
        fsTrain).fsOf.files (["o"] ++ ["train", c, "a.jpg"]) = some 42 ∧
      ∀ c', c' ≠ c →
        (process_split id carddMulti ["c", "train2017"] ["o"] "train"
          fsTrain).fsOf.files (["o"] ++ ["train", c', "a.jpg"]) = none :=
  multi_category_image_copied_exactly_once id carddMulti ["c", "train2017"]
    ["o"] "train" fsTrain _ _ [(10, ["dent", "scratch"])] 10
    ["dent", "scratch"] "a.jpg" 42 (fun l => List.Perm.refl l) (by decide)
    rfl (by decide) (by decide) (by decide) (by decide)
    (by
      intro p hp
      by_cases h1 : p = ["c", "train2017", "a.jpg"]
      · subst h1; exact absurd hp (by decide)
      · by_cases h2 : p = ["c", "train2017", "b.jpg"]
        · subst h2; exact absurd hp (by decide)
        · show (if p = ["c", "train2017", "a.jpg"] then some 42
            else if p = ["c", "train2017", "b.jpg"] then some 7
            else none) = none
          rw [if_neg h1, if_neg h2])
    (by
      intro j cs h hj
      simp only [List.mem_singleton] at h
      injection h with h1 _
      exact absurd h1 hj)
    (RunResult.eq_ok
      (process_split id carddMulti ["c", "train2017"] ["o"] "train" fsTrain)
      (by decide))

/-- C8: for the concrete annotation data with categories `{1: "dent"}`,
images `{10: "a.jpg"}` and one annotation `{image_id: 10, category_id: 1}`,
with the source file present, the split produces exactly the file
`output_dir/<split_name>/dent/a.jpg`, byte-identical to the source, and
changes no other file. -/
theorem single_dent_example_produces_exact_output
    (setOrder : List String → List String)
    (img_dir output_dir : List String) (split_name : String)
    (fs fs1 : FS) (log1 : List CopyMsg) (b : Nat)
    (hperm : ∀ l, (setOrder l).Perm l)
    (hsep : output_dir.isPrefixOf img_dir = false)
    (hsrc : fs.files (img_dir ++ ["a.jpg"]) = some b)
    (hok : process_split setOrder carddSample img_dir output_dir split_name
      fs = RunResult.ok fs1 log1) :
    fs1.files (output_dir ++ [split_name, "dent", "a.jpg"]) = some b ∧
    ∀ p, p ≠ output_dir ++ [split_name, "dent", "a.jpg"] →
      fs1.files p = fs.files p := by
  obtain ⟨m', hb', hloop⟩ := process_split_ok_inv setOrder carddSample
    img_dir output_dir split_name fs fs1 log1 hok
  have hbc : buildImageCategories (category_map carddSample) []
      carddSample.annotations = .ok [(10, ["dent"])] := rfl
  rw [hbc] at hb'
  injection hb' with hb'
  subst hb'
  obtain ⟨hfiles, hdirs, hlog⟩ := copyLoop_ok_spec setOrder
    (image_map carddSample) img_dir output_dir split_name hsep
    [(10, ["dent"])] fs fs1 [] log1 hloop
  have him : image_map carddSample 10 = some "a.jpg" := rfl
  have hc : (setOrder ["dent"]).head? = some "dent" := by
    rw [List.perm_singleton.mp (hperm ["dent"])]
    rfl
  have hW : plannedWrites setOrder (image_map carddSample) img_dir
      output_dir split_name fs.files [(10, ["dent"])] =
      [(output_dir ++ [split_name, "dent", "a.jpg"], b)] := by
    simp only [plannedWrites, him, hc, hsrc]
  constructor
  · rw [hfiles, hW]
    simp only [applyWrites, if_pos]
  · intro p hp
    rw [hfiles, hW]
    simp only [applyWrites]
    rw [if_neg hp]

/-- Witness for C8 at a concrete input. -/
theorem single_dent_example_produces_exact_output_witness :
    (process_split id carddSample ["c", "train2017"] ["o"] "train"
        fsTrain).fsOf.files (["o"] ++ ["train", "dent", "a.jpg"]) =
      some 42 ∧
    ∀ p, p ≠ ["o"] ++ ["train", "dent", "a.jpg"] →
      (process_split id carddSample ["c", "train2017"] ["o"] "train"
        fsTrain).fsOf.files p = fsTrain.files p :=
  single_dent_example_produces_exact_output id ["c", "train2017"] ["o"]
    "train" fsTrain _ _ 42 (fun l => List.Perm.refl l) (by decide)
    (by decide)
    (RunResult.eq_ok
      (process_split id carddSample ["c", "train2017"] ["o"] "train"
        fsTrain)
      (by decide))

/-! ### Whole-converter machinery (for idempotence and frame claims) -/

/-- `applyWrites` as an operator on file maps. -/
def AWf (W : List (List String × Nat)) (f : List String → Option Nat) :
    List String → Option Nat :=
  fun p => applyWrites W f p

/-- The file writes one split performs, as a function of the parsed data and
the initial file contents (empty when the annotation loop aborts). -/
def splitWrites (setOrder : List String → List String) (data : CocoData)
    (img_dir output_dir : List String) (split_name : String)
    (read : List String → Option Nat) : List (List String × Nat) :=
  match buildImageCategories (category_map data) [] data.annotations with
  | .error _ => []
  | .ok m =>
      plannedWrites setOrder (image_map data) img_dir output_dir split_name
        read m

/-- The category directories one split creates. -/
def splitDirs (setOrder : List String → List String) (data : CocoData)
    (output_dir : List String) (split_name : String) :
    List (List String) :=
  match buildImageCategories (category_map data) [] data.annotations with
  | .error _ => []
  | .ok m => plannedDirs setOrder (image_map data) output_dir split_name m

/-- All directories a complete conversion creates: the three split roots and
the category directories of each split. -/
def convertDirs (setOrder : List String → List String)
    (trainData valData testData : CocoData) (output_dir : List String) :
    List (List String) :=
  [output_dir ++ ["train"], output_dir ++ ["val"], output_dir ++ ["test"]]
    ++ splitDirs setOrder trainData output_dir "train"
    ++ splitDirs setOrder valData output_dir "val"
    ++ splitDirs setOrder testData output_dir "test"

theorem splitWrites_shape (setOrder : List String → List String)
    (data : CocoData) (img_dir output_dir : List String)
    (split_name : String) (read : List String → Option Nat)
    (d : List String) (v : Nat)
    (hmem : (d, v) ∈ splitWrites setOrder data img_dir output_dir split_name
      read) :
    ∃ c fn, d = output_dir ++ [split_name, c, fn] ∧
      read (img_dir ++ [fn]) = some v := by
  unfold splitWrites at hmem
  cases hb : buildImageCategories (category_map data) [] data.annotations
      with
  | error e => rw [hb] at hmem; simp at hmem
  | ok m =>
    rw [hb] at hmem
    obtain ⟨i, cats, fn, c, _, _, _, hd, hread⟩ :=
      plannedWrites_mem setOrder (image_map data) img_dir output_dir
        split_name read m d v hmem
    exact ⟨c, fn, hd, hread⟩

theorem plannedDirs_shape (setOrder : List String → List String)
    (imap : Int → Option String) (output_dir : List String)
    (split_name : String) (es : List (Int × List String)) (d : List String)
    (hmem : d ∈ plannedDirs setOrder imap output_dir split_name es) :
    ∃ c, d = output_dir ++ [split_name, c] := by
  induction es with
  | nil => simp [plannedDirs] at hmem
  | cons e rest ih =>
    obtain ⟨i, cats⟩ := e
    simp only [plannedDirs] at hmem
    cases hi : imap i with
    | none => rw [hi] at hmem; simp at hmem
    | some fn =>
      rw [hi] at hmem
      cases hc : (setOrder cats).head? with
      | none => rw [hc] at hmem; simp at hmem
      | some c =>
        rw [hc] at hmem
        rcases List.mem_cons.mp hmem with h | h
        · exact ⟨c, h⟩
        · exact ih h

theorem splitDirs_shape (setOrder : List String → List String)
    (data : CocoData) (output_dir : List String) (split_name : String)
    (d : List String)
    (hmem : d ∈ splitDirs setOrder data output_dir split_name) :
    ∃ c, d = output_dir ++ [split_name, c] := by
  unfold splitDirs at hmem
  cases hb : buildImageCategories (category_map data) [] data.annotations
      with
  | error e => rw [hb] at hmem; simp at hmem
  | ok m =>
    rw [hb] at hmem
    exact plannedDirs_shape setOrder (image_map data) output_dir split_name
      m d hmem

theorem splitWrites_congr (setOrder : List String → List String)
    (data : CocoData) (img_dir output_dir : List String)
    (split_name : String) (r1 r2 : List String → Option Nat)
    (hr : ∀ g, r1 (img_dir ++ [g]) = r2 (img_dir ++ [g])) :
    splitWrites setOrder data img_dir output_dir split_name r1 =
      splitWrites setOrder data img_dir output_dir split_name r2 := by
  unfold splitWrites
  cases buildImageCategories (category_map data) [] data.annotations with
  | error e => rfl
  | ok m =>
    exact plannedWrites_congr setOrder (image_map data) img_dir output_dir
      split_name r1 r2 hr m

/-- A normally completing split determines its final file map: the planned
writes of the split applied to the initial file map. -/
theorem process_split_files_fun (setOrder : List String → List String)
    (data : CocoData) (img_dir output_dir : List String)
    (split_name : String) (fs f1 : FS) (l1 : List CopyMsg)
    (hsep : output_dir.isPrefixOf img_dir = false)
    (hok : process_split setOrder data img_dir output_dir split_name fs =
      RunResult.ok f1 l1) :
    f1.files =
      AWf (splitWrites setOrder data img_dir output_dir split_name fs.files)
        fs.files := by
  obtain ⟨m, hb, hloop⟩ := process_split_ok_inv setOrder data img_dir
    output_dir split_name fs f1 l1 hok
  obtain ⟨hfiles, _, _⟩ := copyLoop_ok_spec setOrder (image_map data)
    img_dir output_dir split_name hsep m fs f1 [] l1 hloop
  funext p
  rw [hfiles p]
  unfold AWf splitWrites
  rw [hb]

/-- A normally completing split determines its final directory predicate. -/
theorem process_split_isDir_fun (setOrder : List String → List String)
    (data : CocoData) (img_dir output_dir : List String)
    (split_name : String) (fs f1 : FS) (l1 : List CopyMsg)
    (hsep : output_dir.isPrefixOf img_dir = false)
    (hok : process_split setOrder data img_dir output_dir split_name fs =
      RunResult.ok f1 l1) :
    ∀ p, f1.isDir p = (fs.isDir p ||
      (splitDirs setOrder data output_dir split_name).any
        fun d => p.isPrefixOf d) := by
  obtain ⟨m, hb, hloop⟩ := process_split_ok_inv setOrder data img_dir
    output_dir split_name fs f1 l1 hok
  obtain ⟨_, hdirs, _⟩ := copyLoop_ok_spec setOrder (image_map data)
    img_dir output_dir split_name hsep m fs f1 [] l1 hloop
  intro p
  rw [hdirs p]
  unfold splitDirs
  rw [hb]

/-- A split that completed normally once completes normally from any
starting state (success depends only on the parsed data). -/
theorem process_split_rerun (setOrder : List String → List String)
    (data : CocoData) (img_dir output_dir : List String)
    (split_name : String) (fs f1 : FS) (l1 : List CopyMsg)
    (hok : process_split setOrder data img_dir output_dir split_name fs =
      RunResult.ok f1 l1) (G : FS) :
    ∃ g1 l1',
      process_split setOrder data img_dir output_dir split_name G =
        RunResult.ok g1 l1' := by
  obtain ⟨m, hb, hloop⟩ := process_split_ok_inv setOrder data img_dir
    output_dir split_name fs f1 l1 hok
  have hclean := copyLoop_ok_clean setOrder (image_map data) img_dir
    output_dir split_name m fs f1 [] l1 hloop
  obtain ⟨g1, l1', hg⟩ := copyLoop_total setOrder (image_map data) img_dir
    output_dir split_name m hclean G []
  refine ⟨g1, l1', ?_⟩
  unfold process_split
  rw [hb]
  exact hg

theorem AWf_idem (W : List (List String × Nat))
    (f : List String → Option Nat) : AWf W (AWf W f) = AWf W f :=
  funext fun p => applyWrites_idem W f p

theorem AWf_comm (W V : List (List String × Nat))
    (hdisj : ∀ d v d' v', (d, v) ∈ W → (d', v') ∈ V → d ≠ d')
    (f : List String → Option Nat) : AWf W (AWf V f) = AWf V (AWf W f) :=
  funext fun p => applyWrites_comm W V hdisj f p

theorem AWf_apply_ne (W : List (List String × Nat))
    (f : List String → Option Nat) (q : List String)
    (h : ∀ d v, (d, v) ∈ W → d ≠ q) : AWf W f q = f q := by
  unfold AWf
  rw [applyWrites_eq_lastWrite, lastWrite_eq_none W q h]

/-- No write of a split targets a path inside a source image folder that is
not under `output_dir`. -/
theorem splitWrites_not_src (setOrder : List String → List String)
    (data : CocoData) (img_dir output_dir : List String)
    (split_name : String) (read : List String → Option Nat)
    (img' : List String) (g : String)
    (hsep' : output_dir.isPrefixOf img' = false) :
    ∀ d v, (d, v) ∈ splitWrites setOrder data img_dir output_dir split_name
      read → d ≠ img' ++ [g] := by
  intro d v hm
  obtain ⟨c, fn, hd, _⟩ := splitWrites_shape setOrder data img_dir
    output_dir split_name read d v hm
  rw [hd]
  exact dst_ne_src output_dir img' hsep' split_name c fn g

/-- Writes of two splits with different split names never collide. -/
theorem splitWrites_disjoint (setOrder : List String → List String)
    (da db : CocoData) (imga imgb output_dir : List String)
    (sa sb : String) (ra rb : List String → Option Nat) (hne : sa ≠ sb) :
    ∀ d v d' v',
      (d, v) ∈ splitWrites setOrder da imga output_dir sa ra →
      (d', v') ∈ splitWrites setOrder db imgb output_dir sb rb →
      d ≠ d' := by
  intro d v d' v' hm hm' heq
  obtain ⟨c, fn, hd, _⟩ := splitWrites_shape setOrder da imga output_dir sa
    ra d v hm
  obtain ⟨c', fn', hd', _⟩ := splitWrites_shape setOrder db imgb output_dir
    sb rb d' v' hm'
  rw [hd, hd'] at heq
  have := List.append_cancel_left heq
  injection this with hs _
  exact hne hs

theorem convert_ok_inv (setOrder : List String → List String)
    (d1 d2 d3 : CocoData) (coco_dir output_dir : List String) (fs F : FS)
    (L : List CopyMsg)
    (hok : convert_cardd_to_directory setOrder d1 d2 d3 coco_dir output_dir
      fs = RunResult.ok F L) :
    ∃ f1 l1 f2 l2 l3,
      process_split setOrder d1 (coco_dir ++ ["train2017"]) output_dir
        "train" (((fs.mkdirs (output_dir ++ ["train"])).mkdirs
          (output_dir ++ ["val"])).mkdirs (output_dir ++ ["test"])) =
        RunResult.ok f1 l1 ∧
      process_split setOrder d2 (coco_dir ++ ["val2017"]) output_dir "val"
        f1 = RunResult.ok f2 l2 ∧
      process_split setOrder d3 (coco_dir ++ ["test2017"]) output_dir "test"
        f2 = RunResult.ok F l3 ∧
      L = l1 ++ l2 ++ l3 := by
  unfold convert_cardd_to_directory at hok
  simp only at hok
  cases hq1 : process_split setOrder d1 (coco_dir ++ ["train2017"])
      output_dir "train" (((fs.mkdirs (output_dir ++ ["train"])).mkdirs
        (output_dir ++ ["val"])).mkdirs (output_dir ++ ["test"])) with
  | err f l => rw [hq1] at hok; cases hok
  | ok f1 l1 =>
    rw [hq1] at hok
    simp only at hok
    cases hq2 : process_split setOrder d2 (coco_dir ++ ["val2017"])
        output_dir "val" f1 with
    | err f l => rw [hq2] at hok; cases hok
    | ok f2 l2 =>
      rw [hq2] at hok
      simp only at hok
      cases hq3 : process_split setOrder d3 (coco_dir ++ ["test2017"])
          output_dir "test" f2 with
      | err f l => rw [hq3] at hok; cases hok
      | ok f3 l3 =>
        rw [hq3] at hok
        simp only at hok
        injection hok with hF hL
        subst hF
        exact ⟨f1, l1, f2, l2, l3, rfl, hq2, hq3, hL.symm⟩

theorem convert_ok_intro (setOrder : List String → List String)
    (d1 d2 d3 : CocoData) (coco_dir output_dir : List String)
    (fs f1 f2 f3 : FS) (l1 l2 l3 : List CopyMsg)
    (hp1 : process_split setOrder d1 (coco_dir ++ ["train2017"]) output_dir
      "train" (((fs.mkdirs (output_dir ++ ["train"])).mkdirs
        (output_dir ++ ["val"])).mkdirs (output_dir ++ ["test"])) =
      RunResult.ok f1 l1)
    (hp2 : process_split setOrder d2 (coco_dir ++ ["val2017"]) output_dir
      "val" f1 = RunResult.ok f2 l2)
    (hp3 : process_split setOrder d3 (coco_dir ++ ["test2017"]) output_dir
      "test" f2 = RunResult.ok f3 l3) :
    convert_cardd_to_directory setOrder d1 d2 d3 coco_dir output_dir fs =
      RunResult.ok f3 (l1 ++ l2 ++ l3) := by
  unfold convert_cardd_to_directory
  simp only
  rw [hp1]
  simp only
  rw [hp2]
  simp only
  rw [hp3]

/-- The state after a normally completing conversion: the three splits'
planned writes (computed against the initial file contents) applied in
order, and the directory predicate extended by exactly the conversion's
directory set. -/
theorem convert_ok_spec (setOrder : List String → List String)
    (d1 d2 d3 : CocoData) (coco_dir output_dir : List String) (fs F : FS)
    (L : List CopyMsg)
    (h1 : output_dir.isPrefixOf coco_dir = false)
    (h2 : coco_dir.isPrefixOf output_dir = false)
    (hok : convert_cardd_to_directory setOrder d1 d2 d3 coco_dir output_dir
      fs = RunResult.ok F L) :
    F.files =
      AWf (splitWrites setOrder d3 (coco_dir ++ ["test2017"]) output_dir
          "test" fs.files)
        (AWf (splitWrites setOrder d2 (coco_dir ++ ["val2017"]) output_dir
            "val" fs.files)
          (AWf (splitWrites setOrder d1 (coco_dir ++ ["train2017"])
              output_dir "train" fs.files) fs.files)) ∧
    ∀ p, F.isDir p = (fs.isDir p ||
      (convertDirs setOrder d1 d2 d3 output_dir).any
        fun d => p.isPrefixOf d) := by
  have hs1 : output_dir.isPrefixOf (coco_dir ++ ["train2017"]) = false :=
    sep_of_incomparable coco_dir output_dir h1 h2 "train2017"
  have hs2 : output_dir.isPrefixOf (coco_dir ++ ["val2017"]) = false :=
    sep_of_incomparable coco_dir output_dir h1 h2 "val2017"
  have hs3 : output_dir.isPrefixOf (coco_dir ++ ["test2017"]) = false :=
    sep_of_incomparable coco_dir output_dir h1 h2 "test2017"
  obtain ⟨f1, l1, f2, l2, l3, hp1, hp2, hp3, hL⟩ := convert_ok_inv setOrder
    d1 d2 d3 coco_dir output_dir fs F L hok
  have e1 : f1.files =
      AWf (splitWrites setOrder d1 (coco_dir ++ ["train2017"]) output_dir
        "train" fs.files) fs.files :=
    process_split_files_fun setOrder d1 (coco_dir ++ ["train2017"])
      output_dir "train"
      (((fs.mkdirs (output_dir ++ ["train"])).mkdirs
        (output_dir ++ ["val"])).mkdirs (output_dir ++ ["test"]))
      f1 l1 hs1 hp1
  have hstab2 : ∀ g, f1.files ((coco_dir ++ ["val2017"]) ++ [g]) =
      fs.files ((coco_dir ++ ["val2017"]) ++ [g]) := by
    intro g
    rw [e1]
    exact AWf_apply_ne _ _ _ (splitWrites_not_src setOrder d1
      (coco_dir ++ ["train2017"]) output_dir "train" fs.files
      (coco_dir ++ ["val2017"]) g hs2)
  have e2 : f2.files =
      AWf (splitWrites setOrder d2 (coco_dir ++ ["val2017"]) output_dir
        "val" fs.files) f1.files := by
    have h := process_split_files_fun setOrder d2 (coco_dir ++ ["val2017"])
      output_dir "val" f1 f2 l2 hs2 hp2
    rwa [splitWrites_congr setOrder d2 (coco_dir ++ ["val2017"]) output_dir
      "val" f1.files fs.files hstab2] at h
  have hstab3 : ∀ g, f2.files ((coco_dir ++ ["test2017"]) ++ [g]) =
      fs.files ((coco_dir ++ ["test2017"]) ++ [g]) := by
    intro g
    rw [e2]
    rw [AWf_apply_ne _ _ _ (splitWrites_not_src setOrder d2
      (coco_dir ++ ["val2017"]) output_dir "val" fs.files
      (coco_dir ++ ["test2017"]) g hs3)]
    rw [e1]
    exact AWf_apply_ne _ _ _ (splitWrites_not_src setOrder d1
      (coco_dir ++ ["train2017"]) output_dir "train" fs.files
      (coco_dir ++ ["test2017"]) g hs3)
  have e3 : F.files =
      AWf (splitWrites setOrder d3 (coco_dir ++ ["test2017"]) output_dir
        "test" fs.files) f2.files := by
    have h := process_split_files_fun setOrder d3 (coco_dir ++ ["test2017"])
      output_dir "test" f2 F l3 hs3 hp3
    rwa [splitWrites_congr setOrder d3 (coco_dir ++ ["test2017"]) output_dir
      "test" f2.files fs.files hstab3] at h
  constructor
  · rw [e3, e2, e1]
  · have hd1 : ∀ p, f1.isDir p = ((((fs.isDir p ||
        p.isPrefixOf (output_dir ++ ["train"])) ||
        p.isPrefixOf (output_dir ++ ["val"])) ||
        p.isPrefixOf (output_dir ++ ["test"])) ||
        (splitDirs setOrder d1 output_dir "train").any
          fun d => p.isPrefixOf d) :=
      process_split_isDir_fun setOrder d1 (coco_dir ++ ["train2017"])
        output_dir "train"
        (((fs.mkdirs (output_dir ++ ["train"])).mkdirs
          (output_dir ++ ["val"])).mkdirs (output_dir ++ ["test"]))
        f1 l1 hs1 hp1
    have hd2 : ∀ p, f2.isDir p = (f1.isDir p ||
        (splitDirs setOrder d2 output_dir "val").any
          fun d => p.isPrefixOf d) :=
      process_split_isDir_fun setOrder d2 (coco_dir ++ ["val2017"])
        output_dir "val" f1 f2 l2 hs2 hp2
    have hd3 : ∀ p, F.isDir p = (f2.isDir p ||
        (splitDirs setOrder d3 output_dir "test").any
          fun d => p.isPrefixOf d) :=
      process_split_isDir_fun setOrder d3 (coco_dir ++ ["test2017"])
        output_dir "test" f2 F l3 hs3 hp3
    intro p
    rw [hd3 p, hd2 p, hd1 p]
    simp [convertDirs, List.any_append, Bool.or_assoc]

/-- A conversion that completed normally once completes normally from any
starting state. -/
theorem convert_rerun (setOrder : List String → List String)
    (d1 d2 d3 : CocoData) (coco_dir output_dir : List String) (fs F : FS)
    (L : List CopyMsg)
    (hok : convert_cardd_to_directory setOrder d1 d2 d3 coco_dir output_dir
      fs = RunResult.ok F L) (G : FS) :
    ∃ F' L',
      convert_cardd_to_directory setOrder d1 d2 d3 coco_dir output_dir G =
        RunResult.ok F' L' := by
  obtain ⟨f1, l1, f2, l2, l3, hp1, hp2, hp3, _⟩ := convert_ok_inv setOrder
    d1 d2 d3 coco_dir output_dir fs F L hok
  obtain ⟨g1, k1, hg1⟩ := process_split_rerun setOrder d1
    (coco_dir ++ ["train2017"]) output_dir "train" _ f1 l1 hp1
    (((G.mkdirs (output_dir ++ ["train"])).mkdirs
      (output_dir ++ ["val"])).mkdirs (output_dir ++ ["test"]))
  obtain ⟨g2, k2, hg2⟩ := process_split_rerun setOrder d2
    (coco_dir ++ ["val2017"]) output_dir "val" f1 f2 l2 hp2 g1
  obtain ⟨g3, k3, hg3⟩ := process_split_rerun setOrder d3
    (coco_dir ++ ["test2017"]) output_dir "test" f2 F l3 hp3 g2
  exact ⟨g3, k1 ++ k2 ++ k3, convert_ok_intro setOrder d1 d2 d3 coco_dir
    output_dir G g1 g2 g3 k1 k2 k3 hg1 hg2 hg3⟩

/-- C5: running the converter twice with identical inputs is idempotent in
content: the second run completes normally and leaves exactly the file
contents and directory tree of the first run (files are overwritten with
the same bytes, nothing is duplicated elsewhere). -/
theorem convert_twice_idempotent (setOrder : List String → List String)
    (d1 d2 d3 : CocoData) (coco_dir output_dir : List String) (fs F : FS)
    (L : List CopyMsg)
    (h1 : output_dir.isPrefixOf coco_dir = false)
    (h2 : coco_dir.isPrefixOf output_dir = false)
    (hok : convert_cardd_to_directory setOrder d1 d2 d3 coco_dir output_dir
      fs = RunResult.ok F L) :
    ∃ F' L',
      convert_cardd_to_directory setOrder d1 d2 d3 coco_dir output_dir F =
        RunResult.ok F' L' ∧
      (∀ p, F'.files p = F.files p) ∧
      (∀ p, F'.isDir p = F.isDir p) := by
  have hs1 : output_dir.isPrefixOf (coco_dir ++ ["train2017"]) = false :=
    sep_of_incomparable coco_dir output_dir h1 h2 "train2017"
  have hs2 : output_dir.isPrefixOf (coco_dir ++ ["val2017"]) = false :=
    sep_of_incomparable coco_dir output_dir h1 h2 "val2017"
  have hs3 : output_dir.isPrefixOf (coco_dir ++ ["test2017"]) = false :=
    sep_of_incomparable coco_dir output_dir h1 h2 "test2017"
  obtain ⟨F', L', hok'⟩ := convert_rerun setOrder d1 d2 d3 coco_dir
    output_dir fs F L hok F
  obtain ⟨hf, hd⟩ := convert_ok_spec setOrder d1 d2 d3 coco_dir output_dir
    fs F L h1 h2 hok
  obtain ⟨hf', hd'⟩ := convert_ok_spec setOrder d1 d2 d3 coco_dir output_dir
    F F' L' h1 h2 hok'
  have hFsrc1 : ∀ g, F.files ((coco_dir ++ ["train2017"]) ++ [g]) =
      fs.files ((coco_dir ++ ["train2017"]) ++ [g]) := by
    intro g
    rw [hf]
    rw [AWf_apply_ne _ _ _ (splitWrites_not_src setOrder d3
      (coco_dir ++ ["test2017"]) output_dir "test" fs.files
      (coco_dir ++ ["train2017"]) g hs1)]
    rw [AWf_apply_ne _ _ _ (splitWrites_not_src setOrder d2
      (coco_dir ++ ["val2017"]) output_dir "val" fs.files
      (coco_dir ++ ["train2017"]) g hs1)]
    exact AWf_apply_ne _ _ _ (splitWrites_not_src setOrder d1
      (coco_dir ++ ["train2017"]) output_dir "train" fs.files
      (coco_dir ++ ["train2017"]) g hs1)
  have hFsrc2 : ∀ g, F.files ((coco_dir ++ ["val2017"]) ++ [g]) =
      fs.files ((coco_dir ++ ["val2017"]) ++ [g]) := by
    intro g
    rw [hf]
    rw [AWf_apply_ne _ _ _ (splitWrites_not_src setOrder d3
      (coco_dir ++ ["test2017"]) output_dir "test" fs.files
      (coco_dir ++ ["val2017"]) g hs2)]
    rw [AWf_apply_ne _ _ _ (splitWrites_not_src setOrder d2
      (coco_dir ++ ["val2017"]) output_dir "val" fs.files
      (coco_dir ++ ["val2017"]) g hs2)]
    exact AWf_apply_ne _ _ _ (splitWrites_not_src setOrder d1
      (coco_dir ++ ["train2017"]) output_dir "train" fs.files
      (coco_dir ++ ["val2017"]) g hs2)
  have hFsrc3 : ∀ g, F.files ((coco_dir ++ ["test2017"]) ++ [g]) =
      fs.files ((coco_dir ++ ["test2017"]) ++ [g]) := by
    intro g
    rw [hf]
    rw [AWf_apply_ne _ _ _ (splitWrites_not_src setOrder d3
      (coco_dir ++ ["test2017"]) output_dir "test" fs.files
      (coco_dir ++ ["test2017"]) g hs3)]
    rw [AWf_apply_ne _ _ _ (splitWrites_not_src setOrder d2
      (coco_dir ++ ["val2017"]) output_dir "val" fs.files
      (coco_dir ++ ["test2017"]) g hs3)]
    exact AWf_apply_ne _ _ _ (splitWrites_not_src setOrder d1
      (coco_dir ++ ["train2017"]) output_dir "train" fs.files
      (coco_dir ++ ["test2017"]) g hs3)
  rw [splitWrites_congr setOrder d1 (coco_dir ++ ["train2017"]) output_dir
    "train" F.files fs.files hFsrc1] at hf'
  rw [splitWrites_congr setOrder d2 (coco_dir ++ ["val2017"]) output_dir
    "val" F.files fs.files hFsrc2] at hf'
  rw [splitWrites_congr setOrder d3 (coco_dir ++ ["test2017"]) output_dir
    "test" F.files fs.files hFsrc3] at hf'
  have h12 := splitWrites_disjoint setOrder d1 d2
    (coco_dir ++ ["train2017"]) (coco_dir ++ ["val2017"]) output_dir
    "train" "val" fs.files fs.files (by decide)
  have h13 := splitWrites_disjoint setOrder d1 d3
    (coco_dir ++ ["train2017"]) (coco_dir ++ ["test2017"]) output_dir
    "train" "test" fs.files fs.files (by decide)
  have h23 := splitWrites_disjoint setOrder d2 d3
    (coco_dir ++ ["val2017"]) (coco_dir ++ ["test2017"]) output_dir
    "val" "test" fs.files fs.files (by decide)
  have hfeq : F'.files = F.files := by
    rw [hf', hf]
    rw [AWf_comm (splitWrites setOrder d1 (coco_dir ++ ["train2017"])
        output_dir "train" fs.files)
      (splitWrites setOrder d3 (coco_dir ++ ["test2017"]) output_dir "test"
        fs.files) h13]
    rw [AWf_comm (splitWrites setOrder d1 (coco_dir ++ ["train2017"])
        output_dir "train" fs.files)
      (splitWrites setOrder d2 (coco_dir ++ ["val2017"]) output_dir "val"
        fs.files) h12]
    rw [AWf_idem (splitWrites setOrder d1 (coco_dir ++ ["train2017"])
        output_dir "train" fs.files) fs.files]
    rw [AWf_comm (splitWrites setOrder d2 (coco_dir ++ ["val2017"])
        output_dir "val" fs.files)
      (splitWrites setOrder d3 (coco_dir ++ ["test2017"]) output_dir "test"
        fs.files) h23]
    rw [AWf_idem (splitWrites setOrder d2 (coco_dir ++ ["val2017"])
        output_dir "val" fs.files)]
    rw [AWf_idem (splitWrites setOrder d3 (coco_dir ++ ["test2017"])
        output_dir "test" fs.files)]
  refine ⟨F', L', hok', fun p => ?_, fun p => ?_⟩
  · rw [hfeq]
  · rw [hd' p, hd p, Bool.or_assoc, Bool.or_self]

/-- Witness for C5 at a concrete input. -/
theorem convert_twice_idempotent_witness :
    ∃ F' L',
      convert_cardd_to_directory id carddSample carddSample carddSample
        ["c"] ["o"]
        (convert_cardd_to_directory id carddSample carddSample carddSample
          ["c"] ["o"] fsAll).fsOf =
        RunResult.ok F' L' ∧
      (∀ p, F'.files p =
        (convert_cardd_to_directory id carddSample carddSample carddSample
          ["c"] ["o"] fsAll).fsOf.files p) ∧
      (∀ p, F'.isDir p =
        (convert_cardd_to_directory id carddSample carddSample carddSample
          ["c"] ["o"] fsAll).fsOf.isDir p) :=
  convert_twice_idempotent id carddSample carddSample carddSample ["c"]
    ["o"] fsAll _ _ (by decide) (by decide)
    (RunResult.eq_ok
      (convert_cardd_to_directory id carddSample carddSample carddSample
        ["c"] ["o"] fsAll)
      (by decide))

theorem AWf_changed (W : List (List String × Nat))
    (f : List String → Option Nat) (p : List String)
    (hne : AWf W f p ≠ f p) : ∃ v, (p, v) ∈ W := by
  unfold AWf at hne
  rw [applyWrites_eq_lastWrite] at hne
  cases hlw : lastWrite W p with
  | none => rw [hlw] at hne; exact absurd rfl hne
  | some v => exact ⟨v, lastWrite_mem W p v hlw⟩

/-- C10 counterexample: with the output directory nested inside `coco_dir`,
the conversion completes and creates a file under `coco_dir`, so the claim
as stated (for arbitrary arguments) is false. -/
theorem nested_output_writes_under_coco_dir :
    ["c"].isPrefixOf ["c", "out", "train", "dent", "a.jpg"] = true ∧
    fsAll.files ["c", "out", "train", "dent", "a.jpg"] = none ∧
    (convert_cardd_to_directory id carddSample carddSample carddSample
      ["c"] ["c", "out"] fsAll).isOk = true ∧
    (convert_cardd_to_directory id carddSample carddSample carddSample
      ["c"] ["c", "out"] fsAll).fsOf.files
      ["c", "out", "train", "dent", "a.jpg"] = some 42 := by
  decide

/-- C10 (amended): provided neither of `coco_dir` and `output_dir` is a
path prefix of the other, a normally completing conversion touches nothing
under `coco_dir`: annotation data and source images are only read; every
file write lands under `output_dir`, and every directory creation is at
`output_dir`, under it, or at one of its ancestors (created by
`os.makedirs`). -/
theorem writes_confined_outside_coco_dir
    (setOrder : List String → List String) (d1 d2 d3 : CocoData)
    (coco_dir output_dir : List String) (fs F : FS) (L : List CopyMsg)
    (h1 : output_dir.isPrefixOf coco_dir = false)
    (h2 : coco_dir.isPrefixOf output_dir = false)
    (hok : convert_cardd_to_directory setOrder d1 d2 d3 coco_dir output_dir
      fs = RunResult.ok F L) :
    (∀ p, coco_dir.isPrefixOf p = true →
      F.files p = fs.files p ∧ F.isDir p = fs.isDir p) ∧
    (∀ p, F.files p ≠ fs.files p → output_dir.isPrefixOf p = true) ∧
    (∀ p, F.isDir p ≠ fs.isDir p →
      output_dir.isPrefixOf p = true ∨ p.isPrefixOf output_dir = true) := by
  obtain ⟨hf, hd⟩ := convert_ok_spec setOrder d1 d2 d3 coco_dir output_dir
    fs F L h1 h2 hok
  have hB : ∀ p, F.files p ≠ fs.files p →
      output_dir.isPrefixOf p = true := by
    intro p hne
    rw [hf] at hne
    by_cases c3 : AWf (splitWrites setOrder d3 (coco_dir ++ ["test2017"])
        output_dir "test" fs.files)
        (AWf (splitWrites setOrder d2 (coco_dir ++ ["val2017"]) output_dir
          "val" fs.files)
          (AWf (splitWrites setOrder d1 (coco_dir ++ ["train2017"])
            output_dir "train" fs.files) fs.files)) p =
        AWf (splitWrites setOrder d2 (coco_dir ++ ["val2017"]) output_dir
          "val" fs.files)
          (AWf (splitWrites setOrder d1 (coco_dir ++ ["train2017"])
            output_dir "train" fs.files) fs.files) p
    · rw [c3] at hne
      by_cases c2 : AWf (splitWrites setOrder d2 (coco_dir ++ ["val2017"])
          output_dir "val" fs.files)
          (AWf (splitWrites setOrder d1 (coco_dir ++ ["train2017"])
            output_dir "train" fs.files) fs.files) p =
          AWf (splitWrites setOrder d1 (coco_dir ++ ["train2017"])
            output_dir "train" fs.files) fs.files p
      · rw [c2] at hne
        obtain ⟨v, hv⟩ := AWf_changed _ _ _ hne
        obtain ⟨c, fn, hp, _⟩ := splitWrites_shape setOrder d1
          (coco_dir ++ ["train2017"]) output_dir "train" fs.files p v hv
        rw [hp]
        exact isPrefixOf_append output_dir _
      · obtain ⟨v, hv⟩ := AWf_changed _ _ _ c2
        obtain ⟨c, fn, hp, _⟩ := splitWrites_shape setOrder d2
          (coco_dir ++ ["val2017"]) output_dir "val" fs.files p v hv
        rw [hp]
        exact isPrefixOf_append output_dir _
    · obtain ⟨v, hv⟩ := AWf_changed _ _ _ c3
      obtain ⟨c, fn, hp, _⟩ := splitWrites_shape setOrder d3
        (coco_dir ++ ["test2017"]) output_dir "test" fs.files p v hv
      rw [hp]
      exact isPrefixOf_append output_dir _
  have hC : ∀ p, F.isDir p ≠ fs.isDir p →
      output_dir.isPrefixOf p = true ∨ p.isPrefixOf output_dir = true := by
    intro p hne
    rw [hd p] at hne
    have hany : (convertDirs setOrder d1 d2 d3 output_dir).any
        (fun d => p.isPrefixOf d) = true := by
      cases ha : (convertDirs setOrder d1 d2 d3 output_dir).any
          (fun d => p.isPrefixOf d) with
      | false => rw [ha, Bool.or_false] at hne; exact absurd rfl hne
      | true => rfl
    obtain ⟨d, hdm, hpfx⟩ := List.any_eq_true.mp hany
    have hshape : ∃ l, d = output_dir ++ l := by
      simp only [convertDirs, List.mem_append, List.mem_cons,
        List.mem_singleton] at hdm
      rcases hdm with (((h | h | h | hnil) | h) | h) | h
      · exact ⟨["train"], h⟩
      · exact ⟨["val"], h⟩
      · exact ⟨["test"], h⟩
      · exact absurd hnil (List.not_mem_nil d)
      · obtain ⟨c, hc⟩ := splitDirs_shape setOrder d1 output_dir "train" d h
        exact ⟨["train", c], hc⟩
      · obtain ⟨c, hc⟩ := splitDirs_shape setOrder d2 output_dir "val" d h
        exact ⟨["val", c], hc⟩
      · obtain ⟨c, hc⟩ := splitDirs_shape setOrder d3 output_dir "test" d h
        exact ⟨["test", c], hc⟩
    obtain ⟨l, hl⟩ := hshape
    rw [hl] at hpfx
    rcases isPrefixOf_comparable p output_dir (output_dir ++ l) hpfx
        (isPrefixOf_append output_dir l) with h | h
    · exact Or.inr h
    · exact Or.inl h
  refine ⟨fun p hcoco => ⟨?_, ?_⟩, hB, hC⟩
  · by_contra hne
    have hout := hB p hne
    rcases isPrefixOf_comparable output_dir coco_dir p hout hcoco with
      h | h
    · rw [h] at h1; cases h1
    · rw [h] at h2; cases h2
  · by_contra hne
    rcases hC p hne with h | h
    · rcases isPrefixOf_comparable output_dir coco_dir p h hcoco with
        h' | h'
      · rw [h'] at h1; cases h1
      · rw [h'] at h2; cases h2
    · have := isPrefixOf_trans coco_dir p output_dir hcoco h
      rw [this] at h2
      cases h2

/-- Witness for the amended C10 at a concrete input. -/
theorem writes_confined_outside_coco_dir_witness :
    (∀ p, (["c"] : List String).isPrefixOf p = true →
      (convert_cardd_to_directory id carddSample carddSample carddSample
        ["c"] ["o"] fsAll).fsOf.files p = fsAll.files p ∧
      (convert_cardd_to_directory id carddSample carddSample carddSample
        ["c"] ["o"] fsAll).fsOf.isDir p = fsAll.isDir p) ∧
    (∀ p, (convert_cardd_to_directory id carddSample carddSample carddSample
        ["c"] ["o"] fsAll).fsOf.files p ≠ fsAll.files p →
      (["o"] : List String).isPrefixOf p = true) ∧
    (∀ p, (convert_cardd_to_directory id carddSample carddSample carddSample
        ["c"] ["o"] fsAll).fsOf.isDir p ≠ fsAll.isDir p →
      (["o"] : List String).isPrefixOf p = true ∨
        p.isPrefixOf ["o"] = true) :=
  writes_confined_outside_coco_dir id carddSample carddSample carddSample
    ["c"] ["o"] fsAll _ _ (by decide) (by decide)
    (RunResult.eq_ok
      (convert_cardd_to_directory id carddSample carddSample carddSample
        ["c"] ["o"] fsAll)
      (by decide))
